import Mathlib

/-!
# Shape detector: shallow embedding and verification

A shallow embedding of the shape-detection pipeline of `src/main.ts`
(`ShapeDetector`): grayscale reduction (`toGray`), Sobel edge detection
(`sobel`), connected-component extraction over the edge mask (the scan
loop with a stack-based flood fill in `detectShapes`), and pixel-count
classification of each extracted region.

Modelling conventions:
* JavaScript numbers are modelled as exact rationals (`ℚ`) where the
  source computes with IEEE doubles, and as `ℤ`/`ℕ` where the source
  only ever holds integers (pixel values, coordinates, sums of integer
  products).  The one place where binary64 rounding is observable is
  the weighted sum stored in `toGray`: there every literal, product and
  sum is rounded by `fl`, an exact model of binary64
  round-to-nearest-even (`dmul`, `dadd`), before the
  `Uint8ClampedArray` store (`jsClampU8`).
* `Uint8ClampedArray` buffers become `List ℕ`; a read `a[i]` becomes
  `List.getD i 0` (all reads performed by the pipeline are in bounds).
* The flood-fill work list (`queue` in the source, used as a stack via
  `push`/`pop`) becomes a `List (ℤ × ℤ)` whose head is the top of the
  stack; the `visited` set becomes a `List ℕ` of indices (an element is
  only added after a failed membership check, so it never holds
  duplicates).
* The source's flood-fill `while` loop is given explicit fuel; theorem
  `floodFill_terminates` (claim C10) shows the fuel used by
  `floodFill` always suffices, so the `none` branch is dead code.
-/

namespace ShapeDet

/-- The RGBA input buffer (the DOM `ImageData`): `data i` is the `i`-th
byte of the flattened row-major RGBA stream, `data.length = 4*width*height`
in the browser; out-of-range bytes are never read by the pipeline. -/
structure ImageData where
  width : ℕ
  height : ℕ
  data : ℕ → ℕ

/-- `DetectedShape.type` in the source (a string union). -/
inductive ShapeType where
  | circle | triangle | rectangle | pentagon | star
deriving DecidableEq, Repr, Inhabited

/-- `DetectedShape.boundingBox` in the source. -/
structure BoundingBox where
  x : ℤ
  y : ℤ
  width : ℤ
  height : ℤ
deriving DecidableEq, Repr, Inhabited

/-- A 2-D point with rational (JS `number`) coordinates. -/
structure PointQ where
  x : ℚ
  y : ℚ
deriving DecidableEq, Repr, Inhabited

/-- `DetectedShape` in the source. -/
structure DetectedShape where
  type : ShapeType
  confidence : ℚ
  boundingBox : BoundingBox
  center : PointQ
  area : ℤ
deriving DecidableEq, Repr, Inhabited

/-- `DetectionResult` in the source. -/
structure DetectionResult where
  shapes : List DetectedShape
  processingTime : ℚ
  imageWidth : ℕ
  imageHeight : ℕ
deriving DecidableEq, Repr

/-- The ECMAScript `ToUint8Clamp` conversion performed by a
`Uint8ClampedArray` store: clamp to `[0, 255]`, then round to the
nearest integer, ties to the even neighbour.  (The source stores the
float64-evaluated weighted average into `Uint8ClampedArray`; the
conversion is applied to the exact rational value of that double.) -/
def jsClampU8 (v : ℚ) : ℕ :=
  if v ≤ 0 then 0
  else if 255 ≤ v then 255
  else
    let f : ℤ := ⌊v⌋
    if (f : ℚ) + 1 / 2 < v then (f + 1).toNat
    else if v < (f : ℚ) + 1 / 2 then f.toNat
    else if f % 2 = 0 then f.toNat else (f + 1).toNat

/-- Round a rational to the nearest integer, ties to the even neighbour
(the IEEE-754 significand rounding used by `fl`). -/
def rhe (y : ℚ) : ℤ :=
  if (⌊y⌋ : ℚ) + 1 / 2 < y then ⌊y⌋ + 1
  else if y < (⌊y⌋ : ℚ) + 1 / 2 then ⌊y⌋
  else if ⌊y⌋ % 2 = 0 then ⌊y⌋ else ⌊y⌋ + 1

/-- Binary64 (JS `number`) rounding: the exact rational value of
rounding `x` to 53 significant bits, nearest, ties to even.  The
significand is obtained by scaling `x` into `[2^52, 2^53)` (by the
power of two determined by `Int.log 2 x`) and rounding with `rhe`.
Faithful for every nonnegative finite value in the binary64 normal
range, which covers all values arising in this pipeline; nonpositive
arguments (only ever exactly `0` here) are mapped to `0`. -/
def fl (x : ℚ) : ℚ :=
  if x ≤ 0 then 0
  else ((rhe (x * (2 : ℚ) ^ ((52 : ℤ) - Int.log 2 x)) : ℤ) : ℚ)
    * (2 : ℚ) ^ (Int.log 2 x - 52)

/-- A JS double multiplication: the exact product, rounded to binary64. -/
def dmul (a b : ℚ) : ℚ := fl (a * b)

/-- A JS double addition: the exact sum, rounded to binary64. -/
def dadd (a b : ℚ) : ℚ := fl (a + b)

/-- The double literal `0.299` of the source: `299/1000` rounded to
binary64 (evaluated in theorem `c0299_val`). -/
def c0299 : ℚ := fl (299 / 1000)

/-- The double literal `0.587` of the source. -/
def c0587 : ℚ := fl (587 / 1000)

/-- The double literal `0.114` of the source. -/
def c0114 : ℚ := fl (114 / 1000)

/-- The source's local `avg` for pixel `p` (byte offset `i = 4*p`): the
weighted sum `0.299*data[i] + 0.587*data[i+1] + 0.114*data[i+2]`, with
every double operation rounded exactly as JS evaluates it — the three
products first, then the two additions left to right. -/
def avg (img : ImageData) (p : ℕ) : ℚ :=
  dadd (dadd (dmul c0299 (img.data (4 * p)))
    (dmul c0587 (img.data (4 * p + 1)))) (dmul c0114 (img.data (4 * p + 2)))

/-- `toGray` of the source: for each pixel `p` (the source iterates
`i = 4*p` over `data.length = 4*width*height` bytes), store the
float64 weighted average `avg` into `gray[p]`; the alpha byte
`data[i+3]` is ignored and the `Uint8ClampedArray` store clamps and
rounds (`jsClampU8`). -/
def toGray (img : ImageData) : List ℕ :=
  (List.range (img.width * img.height)).map fun p => jsClampU8 (avg img p)

/-- Read of a (conceptually `Uint8ClampedArray`) buffer; every read the
pipeline performs is in bounds, so the default is never relevant. -/
def bget (a : List ℕ) (i : ℕ) : ℕ := a.getD i 0

/-- The horizontal Sobel sum of the 3×3 neighbourhood of `(x, y)`:
the source's inner `ky`/`kx` loops with kernel
`gx = [-1,0,1,-2,0,2,-1,0,1]`, written out term by term (row-major
over the neighbourhood, zero-weight terms kept for legibility).
Only evaluated at interior pixels, where `x - 1` and `y - 1` do not
truncate. -/
def sobelSumX (gray : List ℕ) (W x y : ℕ) : ℤ :=
  (-1) * bget gray ((y - 1) * W + (x - 1)) + 0 * bget gray ((y - 1) * W + x)
    + 1 * bget gray ((y - 1) * W + (x + 1))
    + (-2) * bget gray (y * W + (x - 1)) + 0 * bget gray (y * W + x)
    + 2 * bget gray (y * W + (x + 1))
    + (-1) * bget gray ((y + 1) * W + (x - 1)) + 0 * bget gray ((y + 1) * W + x)
    + 1 * bget gray ((y + 1) * W + (x + 1))

/-- The vertical Sobel sum: kernel `gy = [-1,-2,-1,0,0,0,1,2,1]`. -/
def sobelSumY (gray : List ℕ) (W x y : ℕ) : ℤ :=
  (-1) * bget gray ((y - 1) * W + (x - 1)) + (-2) * bget gray ((y - 1) * W + x)
    + (-1) * bget gray ((y - 1) * W + (x + 1))
    + 0 * bget gray (y * W + (x - 1)) + 0 * bget gray (y * W + x)
    + 0 * bget gray (y * W + (x + 1))
    + 1 * bget gray ((y + 1) * W + (x - 1)) + 2 * bget gray ((y + 1) * W + x)
    + 1 * bget gray ((y + 1) * W + (x + 1))

/-- `sobel` of the source.  The output array starts all zero and the
double loop writes index `y*W + x` for `1 ≤ x < W-1`, `1 ≤ y < H-1`,
so entry `i` is nonzero only when `x = i % W`, `y = i / W` is interior.
The source sets the pixel to 255 when `Math.sqrt(sumX²+sumY²) > 100`;
since the arguments are exact integers and square root is strictly
monotone, this is equivalent to the integer comparison
`sumX² + sumY² > 100²` used here (theorem `sobel_spec` states the
square-root form). -/
def sobel (gray : List ℕ) (W H : ℕ) : List ℕ :=
  (List.range (W * H)).map fun i =>
    let x := i % W
    let y := i / W
    if 1 ≤ x ∧ x + 1 < W ∧ 1 ≤ y ∧ y + 1 < H then
      if 100 * 100 < sobelSumX gray W x y ^ 2 + sobelSumY gray W x y ^ 2
      then 255 else 0
    else 0

/-- `getIdx` of the source, for a coordinate that has passed the
flood-fill bounds check (both components nonnegative). -/
def idxN (W : ℕ) (p : ℤ × ℤ) : ℕ := p.2.toNat * W + p.1.toNat

/-- The nine coordinates pushed for an absorbed pixel `c`: the source
pushes `[cx+dx, cy+dy]` for `dy = -1..1`, `dx = -1..1` — all nine
offsets, including `(0,0)` (the pixel itself, later skipped as
visited). -/
def pushes (c : ℤ × ℤ) : List (ℤ × ℤ) :=
  [(c.1 - 1, c.2 - 1), (c.1, c.2 - 1), (c.1 + 1, c.2 - 1),
   (c.1 - 1, c.2), (c.1, c.2), (c.1 + 1, c.2),
   (c.1 - 1, c.2 + 1), (c.1, c.2 + 1), (c.1 + 1, c.2 + 1)]

/-- The source's flood-fill `while (queue.length)` loop, with explicit
fuel.  The head of `queue` is the top of the stack (`queue.pop()` takes
the most recent push, so the nine pushes appear reversed).  A popped
coordinate is dropped when out of bounds, when its mask value is 0, or
when already visited; otherwise it is marked visited, appended to
`points`, and its nine offsets are pushed. -/
def floodLoop (edges : List ℕ) (W H : ℕ) :
    ℕ → List (ℤ × ℤ) → List ℕ → List (ℤ × ℤ) →
    Option (List ℕ × List (ℤ × ℤ))
  | _, [], V, P => some (V, P)
  | 0, _ :: _, _, _ => none
  | fuel + 1, c :: rest, V, P =>
    if c.1 < 0 ∨ c.2 < 0 ∨ (W : ℤ) ≤ c.1 ∨ (H : ℤ) ≤ c.2 then
      floodLoop edges W H fuel rest V P
    else
      if bget edges (idxN W c) = 0 ∨ idxN W c ∈ V then
        floodLoop edges W H fuel rest V P
      else
        floodLoop edges W H fuel ((pushes c).reverse ++ rest)
          (idxN W c :: V) (P ++ [c])

/-- One flood fill from seed `p` with visited set `V`; the fuel
`9*W*H + 2` always suffices (theorem `floodFill_terminates`). -/
def floodFill (edges : List ℕ) (W H : ℕ) (p : ℤ × ℤ) (V : List ℕ) :
    Option (List ℕ × List (ℤ × ℤ)) :=
  floodLoop edges W H (9 * W * H + 2) [p] V []

/-- The interior scan coordinates of the outer double loop of
`detectShapes` (`y = 1 .. height-2` outer, `x = 1 .. width-2` inner),
in row-major order. -/
def interiorCoords (W H : ℕ) : List (ℤ × ℤ) :=
  (List.range (H - 2)).flatMap fun (j : ℕ) =>
    (List.range (W - 2)).map fun (i : ℕ) => ((i : ℤ) + 1, (j : ℤ) + 1)

/-- One step of the scan loop: seed a flood fill when the scanned pixel
is 255 and unvisited; the region's points are appended.  (The `none`
fallback is dead code by `floodFill_terminates`.) -/
def scanStep (edges : List ℕ) (W H : ℕ)
    (st : List ℕ × List (List (ℤ × ℤ))) (p : ℤ × ℤ) :
    List ℕ × List (List (ℤ × ℤ)) :=
  if bget edges (idxN W p) = 255 ∧ idxN W p ∉ st.1 then
    match floodFill edges W H p st.1 with
    | some (V', pts) => (V', st.2 ++ [pts])
    | none => st
  else st

/-- All flood-filled regions, in seed order, before the minimum-size
filter (the source computes and immediately filters each region; the
filter commutes with the per-region processing, so the pipeline is
split here for clarity). -/
def extractAll (edges : List ℕ) (W H : ℕ) : List (List (ℤ × ℤ)) :=
  ((interiorCoords W H).foldl (scanStep edges W H) ([], [])).2

/-- The accepted regions: the source skips a region when
`points.length < 80` ("ignore small noise"). -/
def extractRegions (edges : List ℕ) (W H : ℕ) : List (List (ℤ × ℤ)) :=
  (extractAll edges W H).filter fun r => 80 ≤ r.length

/-- `Math.min(...l)` over a nonempty spread: fold of `min` over all
elements (seeded with the head, which is itself an element). -/
def listMin (l : List ℤ) : ℤ := l.foldl min l.headI

/-- `Math.max(...l)` over a nonempty spread. -/
def listMax (l : List ℤ) : ℤ := l.foldl max l.headI

/-- The body of `detectShapes` that builds one `DetectedShape` from an
accepted region's points (source lines 108–137): bounding box from
min/max, centroid from the two `reduce`-means, area from the bounding
box extents, label from the raw pixel count thresholds 400/900/1500,
confidence the constant 0.7. -/
def mkShape (pts : List (ℤ × ℤ)) : DetectedShape :=
  let xs := pts.map Prod.fst
  let ys := pts.map Prod.snd
  let minX := listMin xs
  let maxX := listMax xs
  let minY := listMin ys
  let maxY := listMax ys
  let cx : ℚ := (xs.sum : ℚ) / (xs.length : ℚ)
  let cy : ℚ := (ys.sum : ℚ) / (ys.length : ℚ)
  let area := (maxX - minX) * (maxY - minY)
  let type : ShapeType :=
    if pts.length < 400 then .triangle
    else if pts.length < 900 then .rectangle
    else if pts.length < 1500 then .pentagon
    else .circle
  { type := type
    confidence := 7 / 10
    boundingBox :=
      { x := minX, y := minY, width := maxX - minX, height := maxY - minY }
    center := { x := cx, y := cy }
    area := area }

/-- `detectShapes` of the source.  `performance.now()` readings are
modelled as the two rational parameters; everything else is a pure
function of the image. -/
def detectShapes (img : ImageData) (startTime finishTime : ℚ) :
    DetectionResult :=
  let gray := toGray img
  let edges := sobel gray img.width img.height
  { shapes := (extractRegions edges img.width img.height).map mkShape
    processingTime := finishTime - startTime
    imageWidth := img.width
    imageHeight := img.height }

/-! ## Specification-side notions -/

/-- In bounds of the `W × H` grid (the flood-fill bounds check). -/
def inB (W H : ℕ) (p : ℤ × ℤ) : Prop :=
  0 ≤ p.1 ∧ 0 ≤ p.2 ∧ p.1 < (W : ℤ) ∧ p.2 < (H : ℤ)

instance (W H : ℕ) (p : ℤ × ℤ) : Decidable (inB W H p) := by
  unfold inB; infer_instance

/-- 8-connectivity: Chebyshev distance at most one (the cell itself is
allowed; it adds nothing to reachability). -/
def adj (p q : ℤ × ℤ) : Prop :=
  (q.1 - p.1).natAbs ≤ 1 ∧ (q.2 - p.2).natAbs ≤ 1

/-- An "on" pixel of the edge mask: in bounds with sample 255. -/
def onPix (edges : List ℕ) (W H : ℕ) (p : ℤ × ℤ) : Prop :=
  inB W H p ∧ bget edges (idxN W p) = 255

/-- One hop of 8-connected reachability through "on" pixels. -/
def hop (edges : List ℕ) (W H : ℕ) (p q : ℤ × ℤ) : Prop :=
  adj p q ∧ onPix edges W H q

/-- Reachability through "on" pixels (reflexive-transitive closure). -/
def Reach (edges : List ℕ) (W H : ℕ) (p q : ℤ × ℤ) : Prop :=
  Relation.ReflTransGen (hop edges W H) p q

/-- The maximal 8-connected component of the "on" pixel `p`. -/
def component (edges : List ℕ) (W H : ℕ) (p : ℤ × ℤ) : Set (ℤ × ℤ) :=
  {q | Reach edges W H p q}

/-- The number of not-yet-visited absorbable pixels (used as the
flood-fill termination measure). -/
def unvisitedOn (edges : List ℕ) (W H : ℕ) (V : List ℕ) : ℕ :=
  ((Finset.range (W * H)).filter fun i => bget edges i ≠ 0 ∧ i ∉ V).card

/-- The invariant of the flood-fill work-list loop started at seed `s`
with initially visited indices `V₀`: the visited set is `V₀` plus the
absorbed points, absorbed points and useful queue entries lie in the
seed's component, every on-neighbour of an absorbed point is absorbed or
queued, the seed is absorbed or queued, and no point is absorbed
twice. -/
structure FloodInv (edges : List ℕ) (W H : ℕ) (s : ℤ × ℤ) (V₀ : List ℕ)
    (queue : List (ℤ × ℤ)) (V : List ℕ) (P : List (ℤ × ℤ)) : Prop where
  vIff : ∀ i, i ∈ V ↔ i ∈ V₀ ∨ ∃ p ∈ P, idxN W p = i
  pComp : ∀ p ∈ P, p ∈ component edges W H s
  qComp : ∀ q ∈ queue, onPix edges W H q → q ∈ component edges W H s
  closure : ∀ p ∈ P, ∀ q, adj p q → onPix edges W H q → q ∈ P ∨ q ∈ queue
  seedIn : s ∈ P ∨ s ∈ queue
  pNodup : P.Nodup

/-- The invariant of the outer row-major scan after the coordinates of
`pre` have been processed: the visited set is exactly the union of the
produced regions, each region is a maximal component seeded at its
row-major-least pixel already scanned, every scanned on-pixel is
visited, and regions are ordered by their seeds. -/
structure ScanInv (edges : List ℕ) (W H : ℕ) (pre : List (ℤ × ℤ))
    (V : List ℕ) (R : List (List (ℤ × ℤ))) : Prop where
  vIff : ∀ i, i ∈ V ↔ ∃ r ∈ R, ∃ q ∈ r, idxN W q = i
  regions : ∀ r ∈ R, r.Nodup ∧ ∃ sd, onPix edges W H sd ∧ sd ∈ pre ∧
    (∀ q, q ∈ r ↔ q ∈ component edges W H sd) ∧
    ∀ q ∈ r, idxN W sd ≤ idxN W q
  preVisited : ∀ q ∈ pre, onPix edges W H q → idxN W q ∈ V
  ordered : R.Pairwise fun r₁ r₂ => ∃ a ∈ r₁,
    (∀ q ∈ r₁, idxN W a ≤ idxN W q) ∧ ∀ b ∈ r₂, idxN W a < idxN W b

/-- A 1×1 image whose pixel is `(R,G,B,A) = (0,0,250,255)`: its
float64-evaluated weighted sum is exactly `28.5` (theorem
`tie_pixel_val`), where the `Uint8ClampedArray` store (ties to even)
and `round` disagree. -/
def tieImg : ImageData :=
  { width := 1, height := 1
    data := fun i => if i = 2 then 250 else if i = 3 then 255 else 0 }

/-- A 1×1 image with constant channel value 10 (weighted sum exactly
10). -/
def constImg : ImageData :=
  { width := 1, height := 1, data := fun _ => 10 }

/-- A zero-width image (the caller-contract violation of §7). -/
def zeroImg : ImageData :=
  { width := 0, height := 7, data := fun _ => 0 }

/-- A 5×5 binary mask with one 3-pixel component (below the minimum
region size). -/
def smallMask : List ℕ :=
  [0, 0, 0, 0, 0,
   0, 255, 255, 0, 0,
   0, 255, 0, 0, 0,
   0, 0, 0, 0, 0,
   0, 0, 0, 0, 0]

/-- A 5×82 binary mask holding one 80-pixel single-column component
(column `x = 1`, rows `1..80`). -/
def lineMask : List ℕ :=
  (List.range 410).map fun i => if i % 5 = 1 ∧ 5 ≤ i ∧ i < 405 then 255 else 0

/-- A 5×82 RGBA image whose column `x = 2` is white on black: its Sobel
mask holds two single-column edge components (at `x = 1` and `x = 3`),
each of exactly 80 pixels, so each detected shape has a zero-width
bounding box. -/
def cexImg : ImageData :=
  { width := 5, height := 82
    data := fun i =>
      if i % 4 = 3 then 255 else if (i / 4) % 5 = 2 then 255 else 0 }

/-- The grayscale buffer of `cexImg` (theorem `toGray_cexImg`). -/
def grayCex : List ℕ :=
  (List.range 410).map fun p => if p % 5 = 2 then 255 else 0

/-- The edge mask of `cexImg`. -/
def edgesCex : List ℕ := sobel grayCex 5 82

/-- The single-column pixel set `x = 1`, `1 ≤ y ≤ 80` — the first
component of `edgesCex`. -/
def colSet : Set (ℤ × ℤ) := {q | q.1 = 1 ∧ 1 ≤ q.2 ∧ q.2 ≤ 80}

/-! ## List fold helpers (`Math.min`/`Math.max` over a spread) -/

theorem foldl_min_le_init (l : List ℤ) (a : ℤ) : l.foldl min a ≤ a := by
  induction l generalizing a with
  | nil => simp
  | cons b t ih => exact le_trans (ih (min a b)) (min_le_left a b)

theorem foldl_min_le_mem (l : List ℤ) (a : ℤ) :
    ∀ x ∈ l, l.foldl min a ≤ x := by
  induction l generalizing a with
  | nil => simp
  | cons b t ih =>
    intro x hx
    rcases List.mem_cons.1 hx with rfl | hx
    · exact le_trans (foldl_min_le_init t (min a x)) (min_le_right a x)
    · exact ih (min a b) x hx

theorem foldl_min_mem (l : List ℤ) (a : ℤ) :
    l.foldl min a = a ∨ l.foldl min a ∈ l := by
  induction l generalizing a with
  | nil => simp
  | cons b t ih =>
    rcases ih (min a b) with h | h
    · rcases min_choice a b with hm | hm
      · exact Or.inl (by simpa [hm] using h)
      · exact Or.inr (by rw [List.foldl_cons, h, hm]; exact List.mem_cons_self _ _)
    · exact Or.inr (List.mem_cons_of_mem b h)

theorem foldl_max_init_le (l : List ℤ) (a : ℤ) : a ≤ l.foldl max a := by
  induction l generalizing a with
  | nil => simp
  | cons b t ih => exact le_trans (le_max_left a b) (ih (max a b))

theorem foldl_max_mem_le (l : List ℤ) (a : ℤ) :
    ∀ x ∈ l, x ≤ l.foldl max a := by
  induction l generalizing a with
  | nil => simp
  | cons b t ih =>
    intro x hx
    rcases List.mem_cons.1 hx with rfl | hx
    · exact le_trans (le_max_right a x) (foldl_max_init_le t (max a x))
    · exact ih (max a b) x hx

theorem foldl_max_mem (l : List ℤ) (a : ℤ) :
    l.foldl max a = a ∨ l.foldl max a ∈ l := by
  induction l generalizing a with
  | nil => simp
  | cons b t ih =>
    rcases ih (max a b) with h | h
    · rcases max_choice a b with hm | hm
      · exact Or.inl (by simpa [hm] using h)
      · exact Or.inr (by rw [List.foldl_cons, h, hm]; exact List.mem_cons_self _ _)
    · exact Or.inr (List.mem_cons_of_mem b h)

theorem listMin_mem {l : List ℤ} (h : l ≠ []) : listMin l ∈ l := by
  rcases foldl_min_mem l l.headI with h' | h'
  · rw [listMin, h']
    exact List.head!_mem_self (by simpa using h)
  · exact h'

theorem listMin_le {l : List ℤ} (x : ℤ) (hx : x ∈ l) : listMin l ≤ x :=
  foldl_min_le_mem l l.headI x hx

theorem listMax_mem {l : List ℤ} (h : l ≠ []) : listMax l ∈ l := by
  rcases foldl_max_mem l l.headI with h' | h'
  · rw [listMax, h']
    exact List.head!_mem_self (by simpa using h)
  · exact h'

theorem le_listMax {l : List ℤ} (x : ℤ) (hx : x ∈ l) : x ≤ listMax l :=
  foldl_max_mem_le l l.headI x hx

/-! ## Claim C2: classification from the raw pixel count -/

/-- C2: the label of a built shape is `triangle` for pixel count `< 400`,
`rectangle` for `400 ≤ n < 900`, `pentagon` for `900 ≤ n < 1500`, and
`circle` for `n ≥ 1500`; it is a function of the raw pixel count
(`points.length`) alone. -/
theorem mkShape_label_thresholds :
    (∀ pts pts' : List (ℤ × ℤ), pts.length = pts'.length →
      (mkShape pts).type = (mkShape pts').type) ∧
    ∀ pts : List (ℤ × ℤ),
      ((mkShape pts).type = ShapeType.triangle ↔ pts.length < 400) ∧
      ((mkShape pts).type = ShapeType.rectangle ↔
        400 ≤ pts.length ∧ pts.length < 900) ∧
      ((mkShape pts).type = ShapeType.pentagon ↔
        900 ≤ pts.length ∧ pts.length < 1500) ∧
      ((mkShape pts).type = ShapeType.circle ↔ 1500 ≤ pts.length) := by
  constructor
  · intro pts pts' h
    simp only [mkShape, h]
  · intro pts
    simp only [mkShape]
    split_ifs <;> simp_all <;> omega

/-- Witness for C2 at concrete regions. -/
theorem mkShape_label_thresholds_witness :
    (mkShape [((0 : ℤ), (0 : ℤ))]).type = (mkShape [((5 : ℤ), (7 : ℤ))]).type ∧
    ((mkShape [((0 : ℤ), (0 : ℤ))]).type = ShapeType.triangle ↔
      [((0 : ℤ), (0 : ℤ))].length < 400) :=
  ⟨mkShape_label_thresholds.1 _ _ rfl, (mkShape_label_thresholds.2 _).1⟩

/-! ## Claim C6: bounding box, centroid and area of a built shape -/

/-- C6: for a nonempty region, the built shape's bounding box is
`(min x, min y, max x − min x, max y − min y)` over the region's
coordinates (characterised as least member / greatest member), the
centroid is the exact arithmetic mean of the coordinates, and the area
is `width × height` of the bounding box. -/
theorem mkShape_geometry (pts : List (ℤ × ℤ)) (h : pts ≠ []) :
    ((mkShape pts).boundingBox.x ∈ pts.map Prod.fst ∧
      ∀ a ∈ pts.map Prod.fst, (mkShape pts).boundingBox.x ≤ a) ∧
    ((mkShape pts).boundingBox.y ∈ pts.map Prod.snd ∧
      ∀ a ∈ pts.map Prod.snd, (mkShape pts).boundingBox.y ≤ a) ∧
    ((mkShape pts).boundingBox.x + (mkShape pts).boundingBox.width ∈
        pts.map Prod.fst ∧
      ∀ a ∈ pts.map Prod.fst,
        a ≤ (mkShape pts).boundingBox.x + (mkShape pts).boundingBox.width) ∧
    ((mkShape pts).boundingBox.y + (mkShape pts).boundingBox.height ∈
        pts.map Prod.snd ∧
      ∀ a ∈ pts.map Prod.snd,
        a ≤ (mkShape pts).boundingBox.y + (mkShape pts).boundingBox.height) ∧
    (mkShape pts).center.x =
      ((pts.map Prod.fst).sum : ℚ) / ((pts.map Prod.fst).length : ℚ) ∧
    (mkShape pts).center.y =
      ((pts.map Prod.snd).sum : ℚ) / ((pts.map Prod.snd).length : ℚ) ∧
    (mkShape pts).area =
      (mkShape pts).boundingBox.width * (mkShape pts).boundingBox.height := by
  have hx : pts.map Prod.fst ≠ [] := by simpa using h
  have hy : pts.map Prod.snd ≠ [] := by simpa using h
  have hminmax : ∀ l : List ℤ, listMin l + (listMax l - listMin l) = listMax l := by
    intro l; ring
  refine ⟨⟨?_, ?_⟩, ⟨?_, ?_⟩, ⟨?_, ?_⟩, ⟨?_, ?_⟩, ?_, ?_, ?_⟩
  · simpa [mkShape] using listMin_mem hx
  · intro a ha; simpa [mkShape] using listMin_le a ha
  · simpa [mkShape] using listMin_mem hy
  · intro a ha; simpa [mkShape] using listMin_le a ha
  · simpa [mkShape, hminmax] using listMax_mem hx
  · intro a ha; simpa [mkShape, hminmax] using le_listMax a ha
  · simpa [mkShape, hminmax] using listMax_mem hy
  · intro a ha; simpa [mkShape, hminmax] using le_listMax a ha
  · simp [mkShape]
  · simp [mkShape]
  · simp [mkShape]

/-- Witness for C6 at a concrete region. -/
theorem mkShape_geometry_witness :
    (mkShape [((2 : ℤ), (3 : ℤ)), (5, 1)]).area =
      (mkShape [((2 : ℤ), (3 : ℤ)), (5, 1)]).boundingBox.width *
        (mkShape [((2 : ℤ), (3 : ℤ)), (5, 1)]).boundingBox.height :=
  (mkShape_geometry [((2 : ℤ), (3 : ℤ)), (5, 1)] (by simp)).2.2.2.2.2.2

/-! ## Claim C8: determinism of detection -/

/-- C8: two calls on identical input buffers (same dimensions, same
pixel data) return identical shape lists and echoed dimensions; only
`processingTime` may differ (it is a function of the clock readings
alone). -/
theorem detectShapes_deterministic (img img' : ImageData)
    (t₀ t₁ t₀' t₁' : ℚ)
    (hw : img.width = img'.width) (hh : img.height = img'.height)
    (hd : ∀ i, img.data i = img'.data i) :
    (detectShapes img t₀ t₁).shapes = (detectShapes img' t₀' t₁').shapes ∧
    (detectShapes img t₀ t₁).imageWidth = (detectShapes img' t₀' t₁').imageWidth ∧
    (detectShapes img t₀ t₁).imageHeight = (detectShapes img' t₀' t₁').imageHeight := by
  have : img = img' := by
    cases img with
    | mk w h d =>
      cases img' with
      | mk w' h' d' =>
        simp only at hw hh hd
        subst hw hh
        have : d = d' := funext hd
        rw [this]
  subst this
  exact ⟨rfl, rfl, rfl⟩

/-- Witness for C8 at two identical concrete images and different clock
readings. -/
theorem detectShapes_deterministic_witness :
    (detectShapes constImg 0 1).shapes = (detectShapes constImg 3 8).shapes ∧
    (detectShapes constImg 0 1).imageWidth = (detectShapes constImg 3 8).imageWidth ∧
    (detectShapes constImg 0 1).imageHeight = (detectShapes constImg 3 8).imageHeight :=
  detectShapes_deterministic constImg constImg 0 1 3 8 rfl rfl (fun _ => rfl)

/-! ## Claim C9: behaviour on zero-dimension input -/

/-- C9 counterexample: on a zero-width buffer `detectShapes` does not
reject; it returns an ordinary `DetectionResult` (with an empty shape
list, echoing the degenerate dimensions). -/
theorem detectShapes_zero_width_returns :
    detectShapes zeroImg 0 5 =
      { shapes := [], processingTime := 5, imageWidth := 0, imageHeight := 7 } := by
  have hcoords : interiorCoords zeroImg.width zeroImg.height = [] := by
    simp [interiorCoords, zeroImg]
  simp only [detectShapes, extractRegions, extractAll, hcoords, List.foldl_nil,
    List.filter_nil, List.map_nil]
  norm_num [zeroImg]

/-- C9 amended: `detectShapes` performs no input validation.  On a
zero-width or zero-height buffer it returns normally: an empty shape
list and the echoed dimensions (a buffer with a wrong channel layout is
not expressible through the `ImageData` interface). -/
theorem detectShapes_zero_dim (img : ImageData) (t₀ t₁ : ℚ)
    (h : img.width = 0 ∨ img.height = 0) :
    (detectShapes img t₀ t₁).shapes = [] ∧
    (detectShapes img t₀ t₁).imageWidth = img.width ∧
    (detectShapes img t₀ t₁).imageHeight = img.height ∧
    (detectShapes img t₀ t₁).processingTime = t₁ - t₀ := by
  have hcoords : interiorCoords img.width img.height = [] := by
    rcases h with h | h <;> simp [interiorCoords, h]
  simp [detectShapes, extractRegions, extractAll, hcoords]

/-- Witness for C9 (amended) at the concrete zero-width image. -/
theorem detectShapes_zero_dim_witness :
    (detectShapes zeroImg 2 3).shapes = [] ∧
    (detectShapes zeroImg 2 3).imageWidth = zeroImg.width ∧
    (detectShapes zeroImg 2 3).imageHeight = zeroImg.height ∧
    (detectShapes zeroImg 2 3).processingTime = 3 - 2 :=
  detectShapes_zero_dim zeroImg 2 3 (Or.inl rfl)

/-! ## Claim C5: the grayscale sample -/

theorem bget_map_range (f : ℕ → ℕ) (N p : ℕ) (hp : p < N) :
    bget ((List.range N).map f) p = f p := by
  simp [bget, List.getD, List.getElem?_map, List.getElem?_range, hp]

/-- `rhe` at a value below the upper half-integer rounds down. -/
theorem rhe_eq_down (y : ℚ) (f : ℤ) (h1 : (f : ℚ) ≤ y)
    (h2 : y < (f : ℚ) + 1 / 2) : rhe y = f := by
  have hf : ⌊y⌋ = f := Int.floor_eq_iff.2 ⟨h1, by linarith⟩
  rw [rhe, hf, if_neg (by linarith), if_pos h2]

/-- `rhe` at a value above the half-integer rounds up. -/
theorem rhe_eq_up (y : ℚ) (f : ℤ) (h1 : (f : ℚ) + 1 / 2 < y)
    (h2 : y < (f : ℚ) + 1) : rhe y = f + 1 := by
  have hf : ⌊y⌋ = f := Int.floor_eq_iff.2 ⟨by linarith, h2⟩
  rw [rhe, hf, if_pos h1]

/-- `rhe` at an exact half-integer with even floor rounds down. -/
theorem rhe_eq_tie_even (y : ℚ) (f : ℤ) (h1 : y = (f : ℚ) + 1 / 2)
    (h2 : f % 2 = 0) : rhe y = f := by
  have hf : ⌊y⌋ = f := Int.floor_eq_iff.2 ⟨by linarith, by linarith⟩
  rw [rhe, hf, if_neg (by linarith), if_neg (by linarith), if_pos h2]

/-- `rhe` at an exact half-integer with odd floor rounds up. -/
theorem rhe_eq_tie_odd (y : ℚ) (f : ℤ) (h1 : y = (f : ℚ) + 1 / 2)
    (h2 : f % 2 = 1) : rhe y = f + 1 := by
  have hf : ⌊y⌋ = f := Int.floor_eq_iff.2 ⟨by linarith, by linarith⟩
  rw [rhe, hf, if_neg (by linarith), if_neg (by linarith), if_neg (by omega)]

theorem rhe_ge_floor (y : ℚ) : ⌊y⌋ ≤ rhe y := by
  unfold rhe
  split_ifs <;> omega

theorem rhe_le_floor_add_one (y : ℚ) : rhe y ≤ ⌊y⌋ + 1 := by
  unfold rhe
  split_ifs <;> omega

/-- Round-to-nearest-even is monotone. -/
theorem rhe_mono {y₁ y₂ : ℚ} (h : y₁ ≤ y₂) : rhe y₁ ≤ rhe y₂ := by
  have hf : ⌊y₁⌋ ≤ ⌊y₂⌋ := Int.floor_le_floor h
  rcases lt_or_eq_of_le hf with hlt | heq
  · calc rhe y₁ ≤ ⌊y₁⌋ + 1 := rhe_le_floor_add_one y₁
      _ ≤ ⌊y₂⌋ := by omega
      _ ≤ rhe y₂ := rhe_ge_floor y₂
  · unfold rhe
    rw [← heq]
    by_cases h1 : (⌊y₁⌋ : ℚ) + 1 / 2 < y₁
    · rw [if_pos h1, if_pos (lt_of_lt_of_le h1 h)]
    · rw [if_neg h1]
      by_cases h2 : y₁ < (⌊y₁⌋ : ℚ) + 1 / 2
      · rw [if_pos h2]
        split_ifs <;> omega
      · rw [if_neg h2]
        by_cases h3 : (⌊y₁⌋ : ℚ) + 1 / 2 < y₂
        · rw [if_pos h3]
          split_ifs <;> omega
        · rw [if_neg h3, if_neg (not_lt.2 (le_trans (not_lt.1 h2) h))]

/-- `Int.log 2` is characterised by the enclosing binade. -/
theorem int_log_eq {x : ℚ} (e : ℤ) (h1 : (2 : ℚ) ^ e ≤ x)
    (h2 : x < (2 : ℚ) ^ (e + 1)) : Int.log 2 x = e := by
  have hx : 0 < x := lt_of_lt_of_le (zpow_pos (by norm_num) e) h1
  have hL1 : ((2 : ℕ) : ℚ) ^ (Int.log 2 x) ≤ x :=
    Int.zpow_log_le_self (by norm_num) hx
  have hL2 : x < ((2 : ℕ) : ℚ) ^ (Int.log 2 x + 1) :=
    Int.lt_zpow_succ_log_self (by norm_num) x
  push_cast at hL1 hL2
  by_contra hne
  rcases lt_or_gt_of_ne hne with h | h
  · have : (2 : ℚ) ^ (Int.log 2 x + 1) ≤ (2 : ℚ) ^ e :=
      zpow_le_zpow_right₀ (by norm_num) (by omega)
    linarith
  · have : (2 : ℚ) ^ (e + 1) ≤ (2 : ℚ) ^ (Int.log 2 x) :=
      zpow_le_zpow_right₀ (by norm_num) (by omega)
    linarith

/-- Evaluation rule for `fl`: exhibit the binade `[2^e, 2^(e+1))` of the
argument, the rounded significand `m`, and the product. -/
theorem fl_eq (x r : ℚ) (e m : ℤ)
    (h1 : (2 : ℚ) ^ e ≤ x) (h2 : x < (2 : ℚ) ^ (e + 1))
    (hm : rhe (x * (2 : ℚ) ^ ((52 : ℤ) - e)) = m)
    (hr : (m : ℚ) * (2 : ℚ) ^ (e - 52) = r) : fl x = r := by
  have hx : 0 < x := lt_of_lt_of_le (zpow_pos (by norm_num) e) h1
  rw [fl, if_neg (not_le.2 hx), int_log_eq e h1 h2, hm, hr]

theorem fl_of_nonpos {x : ℚ} (h : x ≤ 0) : fl x = 0 := by
  rw [fl, if_pos h]

theorem fl_nonneg (x : ℚ) : 0 ≤ fl x := by
  rw [fl]
  split_ifs with h
  · exact le_refl 0
  · push_neg at h
    have hy : (0 : ℚ) ≤ x * (2 : ℚ) ^ ((52 : ℤ) - Int.log 2 x) :=
      mul_nonneg h.le (zpow_pos (by norm_num) _).le
    have hm : (0 : ℤ) ≤ rhe (x * (2 : ℚ) ^ ((52 : ℤ) - Int.log 2 x)) :=
      le_trans (Int.floor_nonneg.2 hy) (rhe_ge_floor _)
    exact mul_nonneg (by exact_mod_cast hm) (zpow_pos (by norm_num : (0:ℚ) < 2) _).le

/-- `fl` never leaves the binade upward by more than one step: the
rounded value stays at or below `2^(log x + 1)`. -/
theorem fl_le_zpow (x : ℚ) (hx : 0 < x) :
    fl x ≤ (2 : ℚ) ^ (Int.log 2 x + 1) := by
  rw [fl, if_neg (not_le.2 hx)]
  have h2 : x < ((2 : ℕ) : ℚ) ^ (Int.log 2 x + 1) :=
    Int.lt_zpow_succ_log_self (by norm_num) x
  push_cast at h2
  have hsc : (0 : ℚ) < (2 : ℚ) ^ ((52 : ℤ) - Int.log 2 x) := zpow_pos (by norm_num) _
  have hprod : (2 : ℚ) ^ (Int.log 2 x + 1) * (2 : ℚ) ^ ((52 : ℤ) - Int.log 2 x)
      = (2 : ℚ) ^ ((53 : ℤ)) := by
    rw [← zpow_add₀ (by norm_num : (2 : ℚ) ≠ 0)]
    rw [show Int.log 2 x + 1 + ((52 : ℤ) - Int.log 2 x) = 53 by ring]
  have hy : x * (2 : ℚ) ^ ((52 : ℤ) - Int.log 2 x) < (2 : ℚ) ^ ((53 : ℤ)) := by
    rw [← hprod]
    exact mul_lt_mul_of_pos_right h2 hsc
  have hfloor : ⌊x * (2 : ℚ) ^ ((52 : ℤ) - Int.log 2 x)⌋ < 2 ^ 53 := by
    rw [Int.floor_lt]
    calc x * (2 : ℚ) ^ ((52 : ℤ) - Int.log 2 x) < (2 : ℚ) ^ ((53 : ℤ)) := hy
      _ = (((2 ^ 53 : ℤ)) : ℚ) := by norm_num
  have hm : rhe (x * (2 : ℚ) ^ ((52 : ℤ) - Int.log 2 x)) ≤ 2 ^ 53 := by
    have := rhe_le_floor_add_one (x * (2 : ℚ) ^ ((52 : ℤ) - Int.log 2 x))
    omega
  calc ((rhe (x * (2 : ℚ) ^ ((52 : ℤ) - Int.log 2 x)) : ℤ) : ℚ)
        * (2 : ℚ) ^ (Int.log 2 x - 52)
      ≤ ((2 : ℚ) ^ ((53 : ℤ))) * (2 : ℚ) ^ (Int.log 2 x - 52) := by
        apply mul_le_mul_of_nonneg_right _ (zpow_pos (by norm_num : (0:ℚ) < 2) _).le
        calc ((rhe (x * (2 : ℚ) ^ ((52 : ℤ) - Int.log 2 x)) : ℤ) : ℚ)
            ≤ (((2 ^ 53 : ℤ)) : ℚ) := by exact_mod_cast hm
          _ = (2 : ℚ) ^ ((53 : ℤ)) := by norm_num
    _ = (2 : ℚ) ^ (Int.log 2 x + 1) := by
        rw [← zpow_add₀ (by norm_num : (2 : ℚ) ≠ 0)]
        rw [show (53 : ℤ) + (Int.log 2 x - 52) = Int.log 2 x + 1 by ring]

/-- `fl` never rounds below the bottom of the argument's binade. -/
theorem zpow_log_le_fl (x : ℚ) (hx : 0 < x) :
    (2 : ℚ) ^ (Int.log 2 x) ≤ fl x := by
  rw [fl, if_neg (not_le.2 hx)]
  have h1 : ((2 : ℕ) : ℚ) ^ (Int.log 2 x) ≤ x :=
    Int.zpow_log_le_self (by norm_num) hx
  push_cast at h1
  have hsc : (0 : ℚ) < (2 : ℚ) ^ ((52 : ℤ) - Int.log 2 x) := zpow_pos (by norm_num) _
  have hy : (2 : ℚ) ^ ((52 : ℤ)) ≤ x * (2 : ℚ) ^ ((52 : ℤ) - Int.log 2 x) := by
    calc (2 : ℚ) ^ ((52 : ℤ))
        = (2 : ℚ) ^ (Int.log 2 x) * (2 : ℚ) ^ ((52 : ℤ) - Int.log 2 x) := by
          rw [← zpow_add₀ (by norm_num : (2 : ℚ) ≠ 0)]
          rw [show Int.log 2 x + ((52 : ℤ) - Int.log 2 x) = 52 by ring]
      _ ≤ x * (2 : ℚ) ^ ((52 : ℤ) - Int.log 2 x) :=
          mul_le_mul_of_nonneg_right h1 hsc.le
  have hfloor : (2 : ℤ) ^ 52 ≤ ⌊x * (2 : ℚ) ^ ((52 : ℤ) - Int.log 2 x)⌋ := by
    apply Int.le_floor.2
    calc (((2 : ℤ) ^ 52 : ℤ) : ℚ) = (2 : ℚ) ^ ((52 : ℤ)) := by norm_num
      _ ≤ x * (2 : ℚ) ^ ((52 : ℤ) - Int.log 2 x) := hy
  have hm : (2 : ℤ) ^ 52 ≤ rhe (x * (2 : ℚ) ^ ((52 : ℤ) - Int.log 2 x)) := by
    have := rhe_ge_floor (x * (2 : ℚ) ^ ((52 : ℤ) - Int.log 2 x))
    omega
  calc (2 : ℚ) ^ (Int.log 2 x)
      = ((2 : ℚ) ^ ((52 : ℤ))) * (2 : ℚ) ^ (Int.log 2 x - 52) := by
        rw [← zpow_add₀ (by norm_num : (2 : ℚ) ≠ 0)]
        rw [show (52 : ℤ) + (Int.log 2 x - 52) = Int.log 2 x by ring]
    _ ≤ ((rhe (x * (2 : ℚ) ^ ((52 : ℤ) - Int.log 2 x)) : ℤ) : ℚ)
        * (2 : ℚ) ^ (Int.log 2 x - 52) := by
        apply mul_le_mul_of_nonneg_right _ (zpow_pos (by norm_num : (0:ℚ) < 2) _).le
        calc (2 : ℚ) ^ ((52 : ℤ)) = (((2 : ℤ) ^ 52 : ℤ) : ℚ) := by norm_num
          _ ≤ ((rhe (x * (2 : ℚ) ^ ((52 : ℤ) - Int.log 2 x)) : ℤ) : ℚ) := by
              exact_mod_cast hm

/-- Binary64 rounding is monotone. -/
theorem fl_mono {x y : ℚ} (h : x ≤ y) : fl x ≤ fl y := by
  by_cases hx : x ≤ 0
  · rw [fl_of_nonpos hx]
    exact fl_nonneg y
  · push_neg at hx
    have hy : 0 < y := lt_of_lt_of_le hx h
    have hlog : Int.log 2 x ≤ Int.log 2 y := Int.log_mono_right hx h
    rcases lt_or_eq_of_le hlog with hlt | heq
    · calc fl x ≤ (2 : ℚ) ^ (Int.log 2 x + 1) := fl_le_zpow x hx
        _ ≤ (2 : ℚ) ^ (Int.log 2 y) := zpow_le_zpow_right₀ (by norm_num) (by omega)
        _ ≤ fl y := zpow_log_le_fl y hy
    · rw [fl, fl, if_neg (not_le.2 hx), if_neg (not_le.2 hy), ← heq]
      apply mul_le_mul_of_nonneg_right _ (zpow_pos (by norm_num : (0:ℚ) < 2) _).le
      have hr := rhe_mono (mul_le_mul_of_nonneg_right h
        (zpow_pos (by norm_num : (0:ℚ) < 2) ((52 : ℤ) - Int.log 2 x)).le)
      exact_mod_cast hr

theorem dmul_zero (a : ℚ) : dmul a 0 = 0 := by
  rw [dmul, mul_zero]
  exact fl_of_nonpos le_rfl

theorem dadd_zero_zero : dadd (0 : ℚ) 0 = 0 := by
  rw [dadd, add_zero]
  exact fl_of_nonpos le_rfl

/-- The double nearest `0.299`. -/
theorem c0299_val : c0299 = 5386305154335113 / 2 ^ 54 := by
  rw [c0299]
  exact fl_eq _ _ (-2) 5386305154335113 (by norm_num) (by norm_num)
    (rhe_eq_down _ _ (by norm_num) (by norm_num)) (by norm_num)

/-- The double nearest `0.587`. -/
theorem c0587_val : c0587 = 2643612981266481 / 2 ^ 52 := by
  rw [c0587]
  exact fl_eq _ _ (-1) 5287225962532962 (by norm_num) (by norm_num)
    (rhe_eq_down _ _ (by norm_num) (by norm_num)) (by norm_num)

/-- The double nearest `0.114`. -/
theorem c0114_val : c0114 = 8214565720323785 / 2 ^ 56 := by
  rw [c0114]
  exact fl_eq _ _ (-4) 8214565720323785 (by norm_num) (by norm_num)
    ((rhe_eq_up _ 8214565720323784 (by norm_num) (by norm_num)).trans (by norm_num))
    (by norm_num)

theorem dmul_c0114_250 : dmul c0114 250 = 57 / 2 := by
  rw [dmul, c0114_val]
  exact fl_eq _ _ 4 8022036836253696 (by norm_num) (by norm_num)
    (rhe_eq_down _ _ (by norm_num) (by norm_num)) (by norm_num)

/-- The float64-evaluated weighted sum of the pixel `(0, 0, 250)` is
exactly `28.5`. -/
theorem tie_pixel_val :
    dadd (dadd (dmul c0299 0) (dmul c0587 0)) (dmul c0114 250) = 57 / 2 := by
  rw [dmul_zero, dmul_zero, dadd_zero_zero, dmul_c0114_250, dadd]
  rw [show (0 : ℚ) + 57 / 2 = 57 / 2 by norm_num]
  exact fl_eq _ _ 4 8022036836253696 (by norm_num) (by norm_num)
    (rhe_eq_down _ _ (by norm_num) (by norm_num)) (by norm_num)

theorem dmul_c0299_255 : dmul c0299 255 = 5365264899825991 / 2 ^ 46 := by
  rw [dmul, c0299_val]
  exact fl_eq _ _ 6 5365264899825991 (by norm_num) (by norm_num)
    (rhe_eq_down _ _ (by norm_num) (by norm_num)) (by norm_num)

theorem dmul_c0587_255 : dmul c0587 255 = 2633286368058409 / 2 ^ 44 := by
  rw [dmul, c0587_val]
  exact fl_eq _ _ 7 5266572736116818 (by norm_num) (by norm_num)
    ((rhe_eq_up _ 5266572736116817 (by norm_num) (by norm_num)).trans (by norm_num))
    (by norm_num)

theorem dmul_c0114_255 : dmul c0114 255 = 4091238786489385 / 2 ^ 47 := by
  rw [dmul, c0114_val]
  exact fl_eq _ _ 4 8182477572978770 (by norm_num) (by norm_num)
    (rhe_eq_down _ _ (by norm_num) (by norm_num)) (by norm_num)

theorem dadd_white_12 :
    dadd (5365264899825991 / 2 ^ 46) (2633286368058409 / 2 ^ 44)
      = 3974602593014907 / 2 ^ 44 := by
  rw [dadd]
  exact fl_eq _ _ 7 7949205186029814 (by norm_num) (by norm_num)
    ((rhe_eq_tie_odd _ 7949205186029813 (by norm_num) (by norm_num)).trans (by norm_num))
    (by norm_num)

/-- The float64-evaluated weighted sum of a white pixel is exactly
`255`. -/
theorem white_pixel_val :
    dadd (dadd (dmul c0299 255) (dmul c0587 255)) (dmul c0114 255) = 255 := by
  rw [dmul_c0299_255, dmul_c0587_255, dmul_c0114_255, dadd_white_12, dadd]
  exact fl_eq _ _ 7 8972014882652160 (by norm_num) (by norm_num)
    (rhe_eq_down _ _ (by norm_num) (by norm_num)) (by norm_num)

/-- The float64-evaluated weighted sum of a black pixel is `0`. -/
theorem black_pixel_val :
    dadd (dadd (dmul c0299 0) (dmul c0587 0)) (dmul c0114 0) = 0 := by
  rw [dmul_zero, dmul_zero, dmul_zero, dadd_zero_zero, dadd_zero_zero]

theorem dmul_c0299_10 : dmul c0299 10 = 6732881442918891 / 2 ^ 51 := by
  rw [dmul, c0299_val]
  exact fl_eq _ _ 1 6732881442918891 (by norm_num) (by norm_num)
    (rhe_eq_down _ _ (by norm_num) (by norm_num)) (by norm_num)

theorem dmul_c0587_10 : dmul c0587 10 = 3304516226583101 / 2 ^ 49 := by
  rw [dmul, c0587_val]
  exact fl_eq _ _ 2 6609032453166202 (by norm_num) (by norm_num)
    (rhe_eq_tie_even _ 6609032453166202 (by norm_num) (by norm_num)) (by norm_num)

theorem dmul_c0114_10 : dmul c0114 10 = 2567051787601183 / 2 ^ 51 := by
  rw [dmul, c0114_val]
  exact fl_eq _ _ 0 5134103575202366 (by norm_num) (by norm_num)
    ((rhe_eq_up _ 5134103575202365 (by norm_num) (by norm_num)).trans (by norm_num))
    (by norm_num)

theorem dadd_const_12 :
    dadd (6732881442918891 / 2 ^ 51) (3304516226583101 / 2 ^ 49)
      = 623467073414103 / 2 ^ 46 := by
  rw [dadd]
  exact fl_eq _ _ 3 4987736587312824 (by norm_num) (by norm_num)
    ((rhe_eq_up _ 4987736587312823 (by norm_num) (by norm_num)).trans (by norm_num))
    (by norm_num)

/-- The float64-evaluated weighted sum of the constant pixel
`(10, 10, 10)` is exactly `10`. -/
theorem const_pixel_val :
    dadd (dadd (dmul c0299 10) (dmul c0587 10)) (dmul c0114 10) = 10 := by
  rw [dmul_c0299_10, dmul_c0587_10, dmul_c0114_10, dadd_const_12, dadd]
  exact fl_eq _ _ 3 5629499534213120 (by norm_num) (by norm_num)
    ((rhe_eq_up _ 5629499534213119 (by norm_num) (by norm_num)).trans (by norm_num))
    (by norm_num)

/-- The float64-evaluated weighted sum of channel values in `[0, 255]`
never exceeds 255 (it is maximal, and exactly 255, at a white pixel):
`fl` is monotone and the weights are nonnegative. -/
theorem gray_val_le_255 {r g b : ℚ} (hr : r ≤ 255) (hg : g ≤ 255) (hb : b ≤ 255) :
    dadd (dadd (dmul c0299 r) (dmul c0587 g)) (dmul c0114 b) ≤ 255 := by
  have hc299 : (0 : ℚ) ≤ c0299 := by rw [c0299_val]; norm_num
  have hc587 : (0 : ℚ) ≤ c0587 := by rw [c0587_val]; norm_num
  have hc114 : (0 : ℚ) ≤ c0114 := by rw [c0114_val]; norm_num
  have h1 : dmul c0299 r ≤ dmul c0299 255 :=
    fl_mono (mul_le_mul_of_nonneg_left hr hc299)
  have h2 : dmul c0587 g ≤ dmul c0587 255 :=
    fl_mono (mul_le_mul_of_nonneg_left hg hc587)
  have h3 : dmul c0114 b ≤ dmul c0114 255 :=
    fl_mono (mul_le_mul_of_nonneg_left hb hc114)
  have h12 : dadd (dmul c0299 r) (dmul c0587 g)
      ≤ dadd (dmul c0299 255) (dmul c0587 255) :=
    fl_mono (add_le_add h1 h2)
  calc dadd (dadd (dmul c0299 r) (dmul c0587 g)) (dmul c0114 b)
      ≤ dadd (dadd (dmul c0299 255) (dmul c0587 255)) (dmul c0114 255) :=
        fl_mono (add_le_add h12 h3)
    _ = 255 := white_pixel_val

/-- The clamped store of a value in `[0, 255]` is at most 255 and, away
from exact half-integer ties, agrees with `round`. -/
theorem jsClampU8_round (v : ℚ) (h0 : 0 ≤ v) (h255 : v ≤ 255) :
    jsClampU8 v ≤ 255 ∧ (Int.fract v ≠ 1 / 2 → (jsClampU8 v : ℤ) = round v) := by
  by_cases hv0 : v ≤ 0
  · have : v = 0 := le_antisymm hv0 h0
    subst this
    norm_num [jsClampU8, Int.fract]
  by_cases hv255 : 255 ≤ v
  · have : v = 255 := le_antisymm h255 hv255
    subst this
    constructor
    · norm_num [jsClampU8]
    · intro _
      norm_num [jsClampU8, round_eq]
  · have hfl : (0 : ℤ) ≤ ⌊v⌋ := Int.floor_nonneg.2 h0
    have hfu : ⌊v⌋ ≤ 254 := by
      have : ⌊v⌋ < 255 := by
        have := Int.floor_le v
        have hlt : v < 255 := lt_of_not_le hv255
        exact_mod_cast Int.floor_lt.2 (by exact_mod_cast hlt)
      omega
    have hvlow : (⌊v⌋ : ℚ) ≤ v := Int.floor_le v
    have hvhigh : v < (⌊v⌋ : ℚ) + 1 := Int.lt_floor_add_one v
    simp only [jsClampU8, if_neg hv0, if_neg hv255]
    by_cases hc1 : (⌊v⌋ : ℚ) + 1 / 2 < v
    · rw [if_pos hc1]
      constructor
      · omega
      · intro _
        rw [round_eq]
        have : ⌊v + 1 / 2⌋ = ⌊v⌋ + 1 := by
          rw [Int.floor_eq_iff]
          constructor
          · push_cast
            linarith
          · push_cast
            linarith
        omega
    · rw [if_neg hc1]
      by_cases hc2 : v < (⌊v⌋ : ℚ) + 1 / 2
      · rw [if_pos hc2]
        constructor
        · omega
        · intro _
          rw [round_eq]
          have : ⌊v + 1 / 2⌋ = ⌊v⌋ := by
            rw [Int.floor_eq_iff]
            exact ⟨by linarith, by linarith⟩
          omega
      · have htie : v = (⌊v⌋ : ℚ) + 1 / 2 := le_antisymm (not_lt.1 hc1) (not_lt.1 hc2)
        constructor
        · split_ifs <;> omega
        · intro hfract
          exfalso
          apply hfract
          rw [Int.fract]
          linarith [htie]

/-- At an exact half-integer in `[0, 255)` the clamped store picks the
even neighbour of the value. -/
theorem jsClampU8_tie (v : ℚ) (h0 : 0 ≤ v) (h255 : v ≤ 255)
    (htie : Int.fract v = 1 / 2) :
    (jsClampU8 v : ℤ) = if ⌊v⌋ % 2 = 0 then ⌊v⌋ else ⌊v⌋ + 1 := by
  have hvfr : v = (⌊v⌋ : ℚ) + 1 / 2 := by
    have h := htie
    rw [Int.fract] at h
    linarith
  have hfl : (0 : ℤ) ≤ ⌊v⌋ := Int.floor_nonneg.2 h0
  have hfc : (0 : ℚ) ≤ (⌊v⌋ : ℚ) := by exact_mod_cast hfl
  have hv0 : ¬ v ≤ 0 := by rw [not_le]; linarith
  have hv255 : ¬ 255 ≤ v := by
    rw [not_le]
    rcases lt_or_eq_of_le h255 with hlt | heq
    · exact hlt
    · exfalso
      rw [heq] at htie
      norm_num [Int.fract] at htie
  simp only [jsClampU8, if_neg hv0, if_neg hv255]
  have hne1 : ¬ ((⌊v⌋ : ℚ) + 1 / 2 < v) := by rw [not_lt]; linarith
  have hne2 : ¬ (v < (⌊v⌋ : ℚ) + 1 / 2) := by rw [not_lt]; linarith
  rw [if_neg hne1, if_neg hne2]
  split_ifs with hpar
  · rw [Int.toNat_of_nonneg hfl]
  · rw [Int.toNat_of_nonneg (by omega)]

/-- C5 counterexample: at the pixel `(0, 0, 250, 255)` the
float64-evaluated weighted sum is exactly `28.5`; the stored sample is
28 (ties to even) while `round` of the exact weighted sum
`0.299R + 0.587G + 0.114B = (299R + 587G + 114B)/1000` is 29. -/
theorem toGray_round_cex :
    bget (toGray tieImg) 0 = 28 ∧
    round (((299 * tieImg.data 0 + 587 * tieImg.data 1
      + 114 * tieImg.data 2 : ℕ) : ℚ) / 1000) = 29 := by
  constructor
  · have havg : avg tieImg 0 = 57 / 2 := by
      unfold avg
      have h0 : ((tieImg.data (4 * 0) : ℕ) : ℚ) = 0 := by norm_num [tieImg]
      have h1 : ((tieImg.data (4 * 0 + 1) : ℕ) : ℚ) = 0 := by norm_num [tieImg]
      have h2 : ((tieImg.data (4 * 0 + 2) : ℕ) : ℚ) = 250 := by norm_num [tieImg]
      rw [h0, h1, h2]
      exact tie_pixel_val
    unfold toGray
    rw [bget_map_range _ _ 0 (by norm_num [tieImg]), havg]
    norm_num [jsClampU8]
    decide
  · norm_num [tieImg, round_eq]

/-- C5 amended: for channel bytes in `[0, 255]` every grayscale sample
is in `[0, 255]`.  The sample is the clamped store of the
float64-evaluated weighted sum `avg`: whenever `avg` is not an exact
half-integer the sample equals `round avg`, and at an exact
half-integer `avg` the store picks the even neighbour (which can differ
from `round` of the exact weighted sum — see `toGray_round_cex`). -/
theorem toGray_round (img : ImageData) (hdata : ∀ i, img.data i ≤ 255)
    (p : ℕ) (hp : p < img.width * img.height) :
    bget (toGray img) p ≤ 255 ∧
    (Int.fract (avg img p) ≠ 1 / 2 →
      (bget (toGray img) p : ℤ) = round (avg img p)) ∧
    (Int.fract (avg img p) = 1 / 2 →
      (bget (toGray img) p : ℤ) =
        if ⌊avg img p⌋ % 2 = 0 then ⌊avg img p⌋ else ⌊avg img p⌋ + 1) := by
  have hbg : bget (toGray img) p = jsClampU8 (avg img p) := by
    unfold toGray
    rw [bget_map_range _ _ p hp]
  have h0 : 0 ≤ avg img p := fl_nonneg _
  have h255 : avg img p ≤ 255 := by
    have h1 : ((img.data (4 * p) : ℕ) : ℚ) ≤ 255 := by
      exact_mod_cast hdata (4 * p)
    have h2 : ((img.data (4 * p + 1) : ℕ) : ℚ) ≤ 255 := by
      exact_mod_cast hdata (4 * p + 1)
    have h3 : ((img.data (4 * p + 2) : ℕ) : ℚ) ≤ 255 := by
      exact_mod_cast hdata (4 * p + 2)
    exact gray_val_le_255 h1 h2 h3
  refine ⟨?_, ?_, ?_⟩
  · rw [hbg]
    exact (jsClampU8_round _ h0 h255).1
  · intro hfr
    rw [hbg]
    exact (jsClampU8_round _ h0 h255).2 hfr
  · intro htie
    rw [hbg]
    exact jsClampU8_tie _ h0 h255 htie

/-- Witness for C5 (amended) at the constant-value 1×1 image, whose
float64 weighted sum is exactly 10. -/
theorem toGray_round_witness :
    (∀ i, constImg.data i ≤ 255) ∧ Int.fract (avg constImg 0) ≠ 1 / 2 ∧
      (bget (toGray constImg) 0 : ℤ) = round (avg constImg 0) := by
  have havg : avg constImg 0 = 10 := by
    unfold avg
    have h0 : ((constImg.data (4 * 0) : ℕ) : ℚ) = 10 := by norm_num [constImg]
    have h1 : ((constImg.data (4 * 0 + 1) : ℕ) : ℚ) = 10 := by norm_num [constImg]
    have h2 : ((constImg.data (4 * 0 + 2) : ℕ) : ℚ) = 10 := by norm_num [constImg]
    rw [h0, h1, h2]
    exact const_pixel_val
  refine ⟨fun i => by norm_num [constImg], ?_, ?_⟩
  · rw [havg]
    norm_num [Int.fract]
  · exact ((toGray_round constImg (fun i => by norm_num [constImg]) 0
      (by norm_num [constImg])).2).1 (by rw [havg]; norm_num [Int.fract])

/-! ## Grid geometry and reachability -/

theorem not_inB_iff (W H : ℕ) (c : ℤ × ℤ) :
    (c.1 < 0 ∨ c.2 < 0 ∨ (W : ℤ) ≤ c.1 ∨ (H : ℤ) ≤ c.2) ↔ ¬ inB W H c := by
  unfold inB
  omega

theorem idxN_lt {W H : ℕ} {p : ℤ × ℤ} (h : inB W H p) : idxN W p < W * H := by
  obtain ⟨h1, h2, h3, h4⟩ := h
  have hx : p.1.toNat < W := by omega
  have hy : p.2.toNat < H := by omega
  calc p.2.toNat * W + p.1.toNat < p.2.toNat * W + W := by omega
    _ = (p.2.toNat + 1) * W := by ring
    _ ≤ H * W := Nat.mul_le_mul_right W (by omega)
    _ = W * H := Nat.mul_comm H W

theorem idxN_inj {W H : ℕ} {p q : ℤ × ℤ} (hp : inB W H p) (hq : inB W H q)
    (h : idxN W p = idxN W q) : p = q := by
  obtain ⟨hp1, hp2, hp3, hp4⟩ := hp
  obtain ⟨hq1, hq2, hq3, hq4⟩ := hq
  have hpw : p.1.toNat < W := by omega
  have hqw : q.1.toNat < W := by omega
  unfold idxN at h
  have h1 : p.1.toNat = q.1.toNat := by
    have e1 : (W * p.2.toNat + p.1.toNat) % W = p.1.toNat := by
      rw [Nat.mul_add_mod]
      exact Nat.mod_eq_of_lt hpw
    have e2 : (W * q.2.toNat + q.1.toNat) % W = q.1.toNat := by
      rw [Nat.mul_add_mod]
      exact Nat.mod_eq_of_lt hqw
    rw [Nat.mul_comm W p.2.toNat] at e1
    rw [Nat.mul_comm W q.2.toNat] at e2
    rw [← e1, ← e2, h]
  have h2 : p.2.toNat = q.2.toNat := by
    have hW : 0 < W := by omega
    have e1 : (W * p.2.toNat + p.1.toNat) / W = p.2.toNat := by
      rw [Nat.mul_add_div hW]
      simp [Nat.div_eq_of_lt hpw]
    have e2 : (W * q.2.toNat + q.1.toNat) / W = q.2.toNat := by
      rw [Nat.mul_add_div hW]
      simp [Nat.div_eq_of_lt hqw]
    rw [Nat.mul_comm W p.2.toNat] at e1
    rw [Nat.mul_comm W q.2.toNat] at e2
    rw [← e1, ← e2, h]
  have : p.1 = q.1 ∧ p.2 = q.2 := by omega
  exact Prod.ext this.1 this.2

theorem adj_symm {p q : ℤ × ℤ} (h : adj p q) : adj q p := by
  obtain ⟨h1, h2⟩ := h
  exact ⟨by omega, by omega⟩

theorem adj_of_mem_pushes {c q : ℤ × ℤ} (h : q ∈ pushes c) : adj c q := by
  simp only [pushes, List.mem_cons, List.not_mem_nil, or_false] at h
  rcases h with h | h | h | h | h | h | h | h | h <;>
    (subst h; exact ⟨by simp, by simp⟩)

theorem mem_pushes_of_adj {c q : ℤ × ℤ} (h : adj c q) : q ∈ pushes c := by
  obtain ⟨h1, h2⟩ := h
  have hx : q.1 = c.1 - 1 ∨ q.1 = c.1 ∨ q.1 = c.1 + 1 := by omega
  have hy : q.2 = c.2 - 1 ∨ q.2 = c.2 ∨ q.2 = c.2 + 1 := by omega
  simp only [pushes, List.mem_cons, List.not_mem_nil, or_false, Prod.ext_iff]
  rcases hx with hx | hx | hx <;> rcases hy with hy | hy | hy <;> tauto

theorem reach_on {edges : List ℕ} {W H : ℕ} {p q : ℤ × ℤ}
    (h : Reach edges W H p q) (hp : onPix edges W H p) : onPix edges W H q := by
  induction h with
  | refl => exact hp
  | tail _ h2 _ => exact h2.2

theorem reach_symm {edges : List ℕ} {W H : ℕ} {p q : ℤ × ℤ}
    (hp : onPix edges W H p) (h : Reach edges W H p q) : Reach edges W H q p := by
  induction h with
  | refl => exact Relation.ReflTransGen.refl
  | tail h1 h2 ih =>
    exact Relation.ReflTransGen.head ⟨adj_symm h2.1, reach_on h1 hp⟩ ih

theorem mem_component_on {edges : List ℕ} {W H : ℕ} {p q : ℤ × ℤ}
    (hp : onPix edges W H p) (hq : q ∈ component edges W H p) :
    onPix edges W H q :=
  reach_on hq hp

theorem component_eq_of_mem {edges : List ℕ} {W H : ℕ} {p q : ℤ × ℤ}
    (hp : onPix edges W H p) (hq : q ∈ component edges W H p) :
    component edges W H q = component edges W H p := by
  ext r
  constructor
  · intro hr
    exact Relation.ReflTransGen.trans hq hr
  · intro hr
    exact Relation.ReflTransGen.trans (reach_symm hp hq) hr

theorem self_mem_component {edges : List ℕ} {W H : ℕ} (p : ℤ × ℤ) :
    p ∈ component edges W H p :=
  Relation.ReflTransGen.refl

theorem bget_ne_zero_lt {edges : List ℕ} {i : ℕ} (h : bget edges i ≠ 0) :
    i < edges.length := by
  by_contra hn
  exact h (List.getD_eq_default _ _ (le_of_not_lt hn))

/-! ## Claim C10: termination of the flood-fill loop -/

theorem unvisitedOn_cons_lt {edges : List ℕ} {W H : ℕ} {V : List ℕ} {i : ℕ}
    (hne : bget edges i ≠ 0) (hiV : i ∉ V) (hlt : i < W * H) :
    unvisitedOn edges W H (i :: V) < unvisitedOn edges W H V := by
  unfold unvisitedOn
  have hsub : ((Finset.range (W * H)).filter
      fun j => bget edges j ≠ 0 ∧ j ∉ i :: V) =
      ((Finset.range (W * H)).filter fun j => bget edges j ≠ 0 ∧ j ∉ V).erase i := by
    ext j
    simp only [Finset.mem_filter, Finset.mem_erase, Finset.mem_range,
      List.mem_cons, not_or]
    tauto
  rw [hsub]
  apply Finset.card_erase_lt_of_mem
  simp only [Finset.mem_filter, Finset.mem_range]
  exact ⟨hlt, hne, hiV⟩

theorem floodLoop_isSome (edges : List ℕ) (W H : ℕ) :
    ∀ fuel (queue : List (ℤ × ℤ)) (V : List ℕ) (P : List (ℤ × ℤ)),
      queue.length + 9 * unvisitedOn edges W H V < fuel →
      (floodLoop edges W H fuel queue V P).isSome := by
  intro fuel
  induction fuel with
  | zero => intro queue V P h; omega
  | succ fuel ih =>
    intro queue V P h
    match queue with
    | [] => simp [floodLoop]
    | c :: rest =>
      rw [floodLoop]
      split
      · apply ih
        simp only [List.length_cons] at h
        omega
      · split
        · apply ih
          simp only [List.length_cons] at h
          omega
        · rename_i hoob hskip
          apply ih
          have hne : bget edges (idxN W c) ≠ 0 := fun h0 => hskip (Or.inl h0)
          have hiV : idxN W c ∉ V := fun hv => hskip (Or.inr hv)
          have hinB : inB W H c := by
            by_contra hn
            exact hoob ((not_inB_iff W H c).2 hn)
          have hdec := unvisitedOn_cons_lt hne hiV (idxN_lt hinB)
          have hlen : ((pushes c).reverse ++ rest).length = 9 + rest.length := by
            simp [pushes]
            omega
          rw [hlen]
          simp only [List.length_cons] at h
          omega

/-- C10: the flood-fill work-list loop always terminates within the fuel
budget `9·W·H + 2` used by `floodFill`: a popped coordinate is either
dropped, or marked visited exactly once before its nine offsets are
pushed, so at most `W·H` pixels are ever absorbed and the work list
drains. -/
theorem floodFill_terminates (edges : List ℕ) (W H : ℕ) (p : ℤ × ℤ)
    (V : List ℕ) : (floodFill edges W H p V).isSome := by
  apply floodLoop_isSome
  have hu : unvisitedOn edges W H V ≤ W * H := by
    calc unvisitedOn edges W H V ≤ (Finset.range (W * H)).card :=
      Finset.card_filter_le _ _
    _ = W * H := Finset.card_range _
  have h9 : 9 * W * H = 9 * (W * H) := by ring
  simp only [List.length_cons, List.length_nil]
  omega

/-! ## Flood-fill correctness -/

theorem floodInv_terminal {edges : List ℕ} {W H : ℕ} {s : ℤ × ℤ}
    {V₀ V : List ℕ} {P : List (ℤ × ℤ)}
    (hInv : FloodInv edges W H s V₀ [] V P) :
    (∀ q, q ∈ P ↔ q ∈ component edges W H s) ∧
    (∀ i, i ∈ V ↔ i ∈ V₀ ∨ ∃ p ∈ P, idxN W p = i) ∧
    P.Nodup := by
  have hseed : s ∈ P := by
    rcases hInv.seedIn with h | h
    · exact h
    · simp at h
  have hsub : ∀ q, q ∈ component edges W H s → q ∈ P := by
    intro q hq
    have hq' : Reach edges W H s q := hq
    induction hq' with
    | refl => exact hseed
    | tail h1 h2 ih =>
      rcases hInv.closure _ (ih h1) _ h2.1 h2.2 with h | h
      · exact h
      · simp at h
  exact ⟨fun q => ⟨hInv.pComp q, hsub q⟩, hInv.vIff, hInv.pNodup⟩

theorem floodLoop_spec (edges : List ℕ) (W H : ℕ) (s : ℤ × ℤ) (V₀ : List ℕ)
    (hbin : ∀ i, i < edges.length → bget edges i = 0 ∨ bget edges i = 255)
    (hs : onPix edges W H s)
    (hdisj : ∀ q ∈ component edges W H s, idxN W q ∉ V₀) :
    ∀ fuel (queue : List (ℤ × ℤ)) (V : List ℕ) (P : List (ℤ × ℤ)),
      FloodInv edges W H s V₀ queue V P →
      ∀ V' P', floodLoop edges W H fuel queue V P = some (V', P') →
        (∀ q, q ∈ P' ↔ q ∈ component edges W H s) ∧
        (∀ i, i ∈ V' ↔ i ∈ V₀ ∨ ∃ p ∈ P', idxN W p = i) ∧
        P'.Nodup := by
  intro fuel
  induction fuel with
  | zero =>
    intro queue V P hInv V' P' heq
    match queue with
    | [] =>
      simp only [floodLoop, Option.some.injEq, Prod.mk.injEq] at heq
      obtain ⟨rfl, rfl⟩ := heq
      exact floodInv_terminal hInv
    | c :: rest =>
      simp only [floodLoop] at heq
      exact Option.noConfusion heq
  | succ fuel ih =>
    intro queue V P hInv V' P' heq
    match queue with
    | [] =>
      simp only [floodLoop, Option.some.injEq, Prod.mk.injEq] at heq
      obtain ⟨rfl, rfl⟩ := heq
      exact floodInv_terminal hInv
    | c :: rest =>
      rw [floodLoop] at heq
      split at heq
      · -- the popped coordinate is out of bounds
        rename_i hcond
        have hcnotB : ¬ inB W H c := (not_inB_iff W H c).1 hcond
        apply ih rest V P ?_ V' P' heq
        refine ⟨hInv.vIff, hInv.pComp, ?_, ?_, ?_, hInv.pNodup⟩
        · exact fun q hq hon => hInv.qComp q (List.mem_cons_of_mem c hq) hon
        · intro p hp q hadj hon
          rcases hInv.closure p hp q hadj hon with h | h
          · exact Or.inl h
          · rcases List.mem_cons.1 h with rfl | h
            · exact absurd hon.1 hcnotB
            · exact Or.inr h
        · rcases hInv.seedIn with h | h
          · exact Or.inl h
          · rcases List.mem_cons.1 h with rfl | h
            · exact absurd hs.1 hcnotB
            · exact Or.inr h
      · split at heq
        · -- the popped coordinate is off or already visited
          rename_i hnoob hskip
          have hinBc : inB W H c := by
            by_contra hn
            exact hnoob ((not_inB_iff W H c).2 hn)
          have hVmem : ∀ q, q ∈ component edges W H s → idxN W q ∈ V → q ∈ P := by
            intro q hqc hqV
            rcases (hInv.vIff _).1 hqV with h | ⟨p', hp', hidx⟩
            · exact absurd h (hdisj q hqc)
            · have honq : onPix edges W H q := mem_component_on hs hqc
              have honp' : onPix edges W H p' :=
                mem_component_on hs (hInv.pComp p' hp')
              have : p' = q := idxN_inj honp'.1 honq.1 hidx
              exact this ▸ hp'
          apply ih rest V P ?_ V' P' heq
          refine ⟨hInv.vIff, hInv.pComp, ?_, ?_, ?_, hInv.pNodup⟩
          · exact fun q hq hon => hInv.qComp q (List.mem_cons_of_mem c hq) hon
          · intro p hp q hadj hon
            rcases hInv.closure p hp q hadj hon with h | h
            · exact Or.inl h
            · rcases List.mem_cons.1 h with rfl | h
              · -- the on-pixel `q = c` was skipped: it must be visited
                have hqc : q ∈ component edges W H s :=
                  Relation.ReflTransGen.tail (hInv.pComp p hp) ⟨hadj, hon⟩
                rcases hskip with h0 | hV
                · exact absurd hon.2 (by simp [h0])
                · exact Or.inl (hVmem q hqc hV)
              · exact Or.inr h
          · rcases hInv.seedIn with h | h
            · exact Or.inl h
            · rcases List.mem_cons.1 h with rfl | h
              · rcases hskip with h0 | hV
                · exact absurd hs.2 (by simp [h0])
                · exact Or.inl (hVmem s (self_mem_component s) hV)
              · exact Or.inr h
        · -- the popped coordinate is absorbed
          rename_i hnoob hskip
          have hinBc : inB W H c := by
            by_contra hn
            exact hnoob ((not_inB_iff W H c).2 hn)
          have hne : bget edges (idxN W c) ≠ 0 := fun h0 => hskip (Or.inl h0)
          have hiV : idxN W c ∉ V := fun hv => hskip (Or.inr hv)
          have honc : onPix edges W H c := by
            refine ⟨hinBc, ?_⟩
            rcases hbin _ (bget_ne_zero_lt hne) with h | h
            · exact absurd h hne
            · exact h
          have hcComp : c ∈ component edges W H s :=
            hInv.qComp c (List.mem_cons_self c rest) honc
          have hcP : c ∉ P := fun hc =>
            hiV ((hInv.vIff _).2 (Or.inr ⟨c, hc, rfl⟩))
          apply ih _ _ _ ?_ V' P' heq
          refine ⟨?_, ?_, ?_, ?_, ?_, ?_⟩
          · intro i
            constructor
            · intro hi
              rcases List.mem_cons.1 hi with rfl | hi
              · exact Or.inr ⟨c, List.mem_append_right P (List.mem_singleton_self c), rfl⟩
              · rcases (hInv.vIff _).1 hi with h | ⟨p', hp', hidx⟩
                · exact Or.inl h
                · exact Or.inr ⟨p', List.mem_append_left _ hp', hidx⟩
            · intro hi
              rcases hi with h | ⟨p', hp', hidx⟩
              · exact List.mem_cons_of_mem _ ((hInv.vIff _).2 (Or.inl h))
              · rcases List.mem_append.1 hp' with h | h
                · exact List.mem_cons_of_mem _ ((hInv.vIff _).2 (Or.inr ⟨p', h, hidx⟩))
                · have : p' = c := List.mem_singleton.1 h
                  subst this
                  exact hidx ▸ List.mem_cons_self _ _
          · intro p hp
            rcases List.mem_append.1 hp with h | h
            · exact hInv.pComp p h
            · exact (List.mem_singleton.1 h) ▸ hcComp
          · intro q hq hon
            rcases List.mem_append.1 hq with h | h
            · have : q ∈ pushes c := List.mem_reverse.1 h
              exact Relation.ReflTransGen.tail hcComp ⟨adj_of_mem_pushes this, hon⟩
            · exact hInv.qComp q (List.mem_cons_of_mem c h) hon
          · intro p hp q hadj hon
            rcases List.mem_append.1 hp with h | h
            · rcases hInv.closure p h q hadj hon with h' | h'
              · exact Or.inl (List.mem_append_left _ h')
              · rcases List.mem_cons.1 h' with rfl | h'
                · exact Or.inl (List.mem_append_right P (List.mem_singleton_self q))
                · exact Or.inr (List.mem_append_right _ h')
            · have : p = c := List.mem_singleton.1 h
              subst this
              exact Or.inr (List.mem_append_left _
                (List.mem_reverse.2 (mem_pushes_of_adj hadj)))
          · rcases hInv.seedIn with h | h
            · exact Or.inl (List.mem_append_left _ h)
            · rcases List.mem_cons.1 h with rfl | h
              · exact Or.inl (List.mem_append_right P (List.mem_singleton_self s))
              · exact Or.inr (List.mem_append_right _ h)
          · rw [List.nodup_append]
            exact ⟨hInv.pNodup, List.nodup_singleton c,
              fun a ha hb => (List.mem_singleton.1 hb ▸ hcP) ha⟩

theorem floodFill_spec (edges : List ℕ) (W H : ℕ) (s : ℤ × ℤ) (V₀ : List ℕ)
    (hbin : ∀ i, i < edges.length → bget edges i = 0 ∨ bget edges i = 255)
    (hs : onPix edges W H s)
    (hdisj : ∀ q ∈ component edges W H s, idxN W q ∉ V₀)
    (V' : List ℕ) (P' : List (ℤ × ℤ))
    (heq : floodFill edges W H s V₀ = some (V', P')) :
    (∀ q, q ∈ P' ↔ q ∈ component edges W H s) ∧
    (∀ i, i ∈ V' ↔ i ∈ V₀ ∨ ∃ p ∈ P', idxN W p = i) ∧
    P'.Nodup := by
  apply floodLoop_spec edges W H s V₀ hbin hs hdisj _ [s] V₀ [] ?_ V' P' heq
  refine ⟨?_, ?_, ?_, ?_, ?_, ?_⟩
  · intro i; simp
  · intro p hp; simp at hp
  · intro q hq hon
    have : q = s := List.mem_singleton.1 hq
    subst this
    exact self_mem_component q
  · intro p hp; simp at hp
  · exact Or.inr (List.mem_singleton_self s)
  · exact List.nodup_nil

/-! ## The row-major scan -/

theorem mem_interiorCoords_iff (W H : ℕ) (p : ℤ × ℤ) :
    p ∈ interiorCoords W H ↔
      1 ≤ p.1 ∧ p.1 + 1 < (W : ℤ) ∧ 1 ≤ p.2 ∧ p.2 + 1 < (H : ℤ) := by
  simp only [interiorCoords, List.mem_flatMap, List.mem_map, List.mem_range]
  constructor
  · rintro ⟨j, hj, i, hi, rfl⟩
    refine ⟨by simp, ?_, by simp, ?_⟩
    · simp only [Prod.fst]
      omega
    · simp only [Prod.snd]
      omega
  · rintro ⟨h1, h2, h3, h4⟩
    refine ⟨(p.2 - 1).toNat, by omega, (p.1 - 1).toNat, by omega, ?_⟩
    have e1 : ((p.1 - 1).toNat : ℤ) + 1 = p.1 := by omega
    have e2 : ((p.2 - 1).toNat : ℤ) + 1 = p.2 := by omega
    rw [e1, e2]

theorem inB_of_interior {W H : ℕ} {p : ℤ × ℤ}
    (h : 1 ≤ p.1 ∧ p.1 + 1 < (W : ℤ) ∧ 1 ≤ p.2 ∧ p.2 + 1 < (H : ℤ)) :
    inB W H p := by
  obtain ⟨h1, h2, h3, h4⟩ := h
  exact ⟨by omega, by omega, by omega, by omega⟩

theorem interiorCoords_pairwise (W H : ℕ) :
    (interiorCoords W H).Pairwise fun p q => idxN W p < idxN W q := by
  unfold interiorCoords
  rw [List.pairwise_flatMap]
  constructor
  · intro j _
    rw [List.pairwise_map]
    apply List.Pairwise.imp ?_ (List.pairwise_lt_range (W - 2))
    intro i i' hii'
    unfold idxN
    have e1 : (((i : ℤ) + 1).toNat) = i + 1 := by omega
    have e2 : (((i' : ℤ) + 1).toNat) = i' + 1 := by omega
    have e3 : (((j : ℤ) + 1).toNat) = j + 1 := by omega
    simp only [Prod.fst, Prod.snd, e1, e2, e3]
    omega
  · apply List.Pairwise.imp ?_ (List.pairwise_lt_range (H - 2))
    intro j j' hjj' x hx y hy
    simp only [List.mem_map, List.mem_range] at hx hy
    obtain ⟨i, hi, rfl⟩ := hx
    obtain ⟨i', hi', rfl⟩ := hy
    unfold idxN
    have e1 : (((i : ℤ) + 1).toNat) = i + 1 := by omega
    have e2 : (((i' : ℤ) + 1).toNat) = i' + 1 := by omega
    have e3 : (((j : ℤ) + 1).toNat) = j + 1 := by omega
    have e4 : (((j' : ℤ) + 1).toNat) = j' + 1 := by omega
    simp only [Prod.fst, Prod.snd, e1, e2, e3, e4]
    have hstep : (j + 1) * W + (i + 1) < (j + 2) * W := by
      have : i + 2 ≤ W := by omega
      nlinarith
    have hmono : (j + 2) * W ≤ (j' + 1) * W :=
      Nat.mul_le_mul_right W (by omega)
    omega

theorem onPix_interior {edges : List ℕ} {W H : ℕ}
    (hb : ∀ x : ℕ, x < W → ∀ y : ℕ, y < H → bget edges (y * W + x) = 255 →
      1 ≤ x ∧ x + 1 < W ∧ 1 ≤ y ∧ y + 1 < H)
    {q : ℤ × ℤ} (hq : onPix edges W H q) :
    1 ≤ q.1 ∧ q.1 + 1 < (W : ℤ) ∧ 1 ≤ q.2 ∧ q.2 + 1 < (H : ℤ) := by
  obtain ⟨⟨h1, h2, h3, h4⟩, h255⟩ := hq
  have hx : q.1.toNat < W := by omega
  have hy : q.2.toNat < H := by omega
  have := hb q.1.toNat hx q.2.toNat hy h255
  omega

theorem scan_spec (edges : List ℕ) (W H : ℕ)
    (hbin : ∀ i, i < edges.length → bget edges i = 0 ∨ bget edges i = 255)
    (hb : ∀ x : ℕ, x < W → ∀ y : ℕ, y < H → bget edges (y * W + x) = 255 →
      1 ≤ x ∧ x + 1 < W ∧ 1 ≤ y ∧ y + 1 < H) :
    ∀ (suf pre : List (ℤ × ℤ)) (st : List ℕ × List (List (ℤ × ℤ))),
      interiorCoords W H = pre ++ suf →
      ScanInv edges W H pre st.1 st.2 →
      ScanInv edges W H (interiorCoords W H)
        (List.foldl (scanStep edges W H) st suf).1
        (List.foldl (scanStep edges W H) st suf).2 := by
  intro suf
  induction suf with
  | nil =>
    intro pre st hsplit hInv
    rw [List.append_nil] at hsplit
    rw [List.foldl_nil]
    exact hsplit ▸ hInv
  | cons p suf' ih =>
    intro pre st hsplit hInv
    rw [List.foldl_cons]
    have hsplit' : interiorCoords W H = (pre ++ [p]) ++ suf' := by
      rw [hsplit, List.append_assoc, List.singleton_append]
    apply ih (pre ++ [p]) (scanStep edges W H st p) hsplit'
    -- it remains to extend the invariant over the processing of `p`
    have hpmem : p ∈ interiorCoords W H := by
      rw [hsplit]
      exact List.mem_append_right pre (List.mem_cons_self p suf')
    have hpint := (mem_interiorCoords_iff W H p).1 hpmem
    have hpinB : inB W H p := inB_of_interior hpint
    by_cases hcond : bget edges (idxN W p) = 255 ∧ idxN W p ∉ st.1
    · -- `p` seeds a new region
      have hpOn : onPix edges W H p := ⟨hpinB, hcond.1⟩
      obtain ⟨res, hres⟩ :=
        Option.isSome_iff_exists.1 (floodFill_terminates edges W H p st.1)
      obtain ⟨V', pts⟩ := res
      have hstep : scanStep edges W H st p = (V', st.2 ++ [pts]) := by
        rw [scanStep, if_pos hcond, hres]
      have hdisjV : ∀ q ∈ component edges W H p, idxN W q ∉ st.1 := by
        intro q hq hqV
        obtain ⟨r, hrR, q', hq'r, hidx⟩ := (hInv.vIff _).1 hqV
        obtain ⟨hnd, sd, hsdOn, hsdPre, hriff, hleast⟩ := hInv.regions r hrR
        have hq'c : q' ∈ component edges W H sd := (hriff q').1 hq'r
        have honq' : onPix edges W H q' := mem_component_on hsdOn hq'c
        have honq : onPix edges W H q := mem_component_on hpOn hq
        have : q' = q := idxN_inj honq'.1 honq.1 hidx
        subst this
        have hcomp_eq : component edges W H p = component edges W H sd := by
          rw [← component_eq_of_mem hpOn hq, component_eq_of_mem hsdOn hq'c]
        have hpr : p ∈ r :=
          (hriff p).2 (hcomp_eq ▸ self_mem_component p)
        exact hcond.2 ((hInv.vIff _).2 ⟨r, hrR, p, hpr, rfl⟩)
      obtain ⟨hptsIff, hV'Iff, hptsNodup⟩ :=
        floodFill_spec edges W H p st.1 hbin hpOn hdisjV V' pts hres
      have hppts : p ∈ pts := (hptsIff p).2 (self_mem_component p)
      have hsorted : (pre ++ p :: suf').Pairwise
          (fun a b => idxN W a < idxN W b) := by
        rw [← hsplit]
        exact interiorCoords_pairwise W H
      have hbefore : ∀ a ∈ pre, ∀ b ∈ p :: suf', idxN W a < idxN W b :=
        (List.pairwise_append.1 hsorted).2.2
      have hptsPos : ∀ q ∈ pts, q ∈ p :: suf' := by
        intro q hq
        have hqc : q ∈ component edges W H p := (hptsIff q).1 hq
        have honq : onPix edges W H q := mem_component_on hpOn hqc
        have hqmem : q ∈ interiorCoords W H :=
          (mem_interiorCoords_iff W H q).2 (onPix_interior hb honq)
        rw [hsplit] at hqmem
        rcases List.mem_append.1 hqmem with h | h
        · exact absurd (hInv.preVisited q h honq) (hdisjV q hqc)
        · exact h
      have hleast_new : ∀ q ∈ pts, idxN W p ≤ idxN W q := by
        intro q hq
        rcases List.mem_cons.1 (hptsPos q hq) with rfl | h
        · exact le_refl _
        · exact le_of_lt
            ((List.pairwise_cons.1 (List.pairwise_append.1 hsorted).2.1).1 q h)
      rw [hstep]
      refine ⟨?_, ?_, ?_, ?_⟩
      · intro i
        constructor
        · intro hi
          rcases (hV'Iff i).1 hi with h | ⟨q, hq, hidx⟩
          · obtain ⟨r, hrR, q, hq, hidx⟩ := (hInv.vIff _).1 h
            exact ⟨r, List.mem_append_left _ hrR, q, hq, hidx⟩
          · exact ⟨pts, List.mem_append_right _ (List.mem_singleton_self pts),
              q, hq, hidx⟩
        · rintro ⟨r, hrR, q, hq, hidx⟩
          rcases List.mem_append.1 hrR with h | h
          · exact (hV'Iff i).2 (Or.inl ((hInv.vIff _).2 ⟨r, h, q, hq, hidx⟩))
          · have : r = pts := List.mem_singleton.1 h
            subst this
            exact (hV'Iff i).2 (Or.inr ⟨q, hq, hidx⟩)
      · intro r hrR
        rcases List.mem_append.1 hrR with h | h
        · obtain ⟨hnd, sd, hsdOn, hsdPre, hriff, hleast⟩ := hInv.regions r h
          exact ⟨hnd, sd, hsdOn, List.mem_append_left _ hsdPre, hriff, hleast⟩
        · have : r = pts := List.mem_singleton.1 h
          subst this
          exact ⟨hptsNodup, p, hpOn,
            List.mem_append_right _ (List.mem_singleton_self p),
            hptsIff, hleast_new⟩
      · intro q hq honq
        rcases List.mem_append.1 hq with h | h
        · exact (hV'Iff _).2 (Or.inl (hInv.preVisited q h honq))
        · have : q = p := List.mem_singleton.1 h
          subst this
          exact (hV'Iff _).2 (Or.inr ⟨q, hppts, rfl⟩)
      · rw [List.pairwise_append]
        refine ⟨hInv.ordered, List.pairwise_singleton _ _, ?_⟩
        intro r hrR r' hr'
        have : r' = pts := List.mem_singleton.1 hr'
        subst this
        obtain ⟨hnd, sd, hsdOn, hsdPre, hriff, hleast⟩ := hInv.regions r hrR
        refine ⟨sd, (hriff sd).2 (self_mem_component sd), hleast, ?_⟩
        intro b hb'
        exact hbefore sd hsdPre b (hptsPos b hb')
    · -- `p` does not seed: state unchanged
      have hstep : scanStep edges W H st p = st := by
        rw [scanStep, if_neg hcond]
      rw [hstep]
      refine ⟨hInv.vIff, ?_, ?_, hInv.ordered⟩
      · intro r hrR
        obtain ⟨hnd, sd, hsdOn, hsdPre, hriff, hleast⟩ := hInv.regions r hrR
        exact ⟨hnd, sd, hsdOn, List.mem_append_left _ hsdPre, hriff, hleast⟩
      · intro q hq honq
        rcases List.mem_append.1 hq with h | h
        · exact hInv.preVisited q h honq
        · have : q = p := List.mem_singleton.1 h
          subst this
          rcases not_and_or.1 hcond with h' | h'
          · exact absurd honq.2 h'
          · exact not_not.1 h'

theorem extractAll_scanInv (edges : List ℕ) (W H : ℕ)
    (hbin : ∀ i, i < edges.length → bget edges i = 0 ∨ bget edges i = 255)
    (hb : ∀ x : ℕ, x < W → ∀ y : ℕ, y < H → bget edges (y * W + x) = 255 →
      1 ≤ x ∧ x + 1 < W ∧ 1 ≤ y ∧ y + 1 < H) :
    ScanInv edges W H (interiorCoords W H)
      ((interiorCoords W H).foldl (scanStep edges W H) ([], [])).1
      (extractAll edges W H) := by
  unfold extractAll
  apply scan_spec edges W H hbin hb (interiorCoords W H) [] ([], [])
    (List.nil_append _).symm
  refine ⟨?_, ?_, ?_, List.Pairwise.nil⟩
  · intro i; simp
  · intro r hr; simp at hr
  · intro q hq; simp at hq

theorem region_length_ncard {edges : List ℕ} {W H : ℕ} {sd : ℤ × ℤ}
    {r : List (ℤ × ℤ)} (hnd : r.Nodup)
    (hiff : ∀ q, q ∈ r ↔ q ∈ component edges W H sd) :
    (component edges W H sd).ncard = r.length := by
  have hset : component edges W H sd = ↑r.toFinset := by
    ext q
    simp only [Finset.mem_coe, List.mem_toFinset]
    exact (hiff q).symm
  rw [hset, Set.ncard_coe_Finset, List.toFinset_card_of_nodup hnd]

/-- C3: over a binary edge mask whose on-pixels are interior (as `sobel`
guarantees), the accepted regions are exactly the maximal 8-connected
components of on-pixels with at least 80 pixels: every emitted region is
such a component (without duplicated pixels, seeded at its
row-major-least pixel), every component with ≥ 80 pixels is emitted,
components with fewer than 80 pixels are discarded entirely, and regions
are emitted in the row-major order of their seeds. -/
theorem extractRegions_components (edges : List ℕ) (W H : ℕ)
    (hbin : ∀ i, i < edges.length → bget edges i = 0 ∨ bget edges i = 255)
    (hb : ∀ x : ℕ, x < W → ∀ y : ℕ, y < H → bget edges (y * W + x) = 255 →
      1 ≤ x ∧ x + 1 < W ∧ 1 ≤ y ∧ y + 1 < H) :
    (∀ r ∈ extractRegions edges W H, 80 ≤ r.length ∧ r.Nodup ∧
      ∃ sd, onPix edges W H sd ∧
        (∀ q, q ∈ r ↔ q ∈ component edges W H sd) ∧
        ∀ q ∈ r, idxN W sd ≤ idxN W q) ∧
    (∀ p : ℤ × ℤ, onPix edges W H p →
      80 ≤ (component edges W H p).ncard →
      ∃ r ∈ extractRegions edges W H,
        ∀ q, q ∈ r ↔ q ∈ component edges W H p) ∧
    (∀ p : ℤ × ℤ, onPix edges W H p → (component edges W H p).ncard < 80 →
      ∀ r ∈ extractRegions edges W H, p ∉ r) ∧
    (extractRegions edges W H).Pairwise (fun r₁ r₂ => ∃ a ∈ r₁,
      (∀ q ∈ r₁, idxN W a ≤ idxN W q) ∧ ∀ b ∈ r₂, idxN W a < idxN W b) := by
  have hscan := extractAll_scanInv edges W H hbin hb
  have hmemfilter : ∀ r, r ∈ extractRegions edges W H ↔
      r ∈ extractAll edges W H ∧ 80 ≤ r.length := by
    intro r
    unfold extractRegions
    rw [List.mem_filter]
    simp
  refine ⟨?_, ?_, ?_, ?_⟩
  · intro r hr
    obtain ⟨hall, hlen⟩ := (hmemfilter r).1 hr
    obtain ⟨hnd, sd, hsdOn, _, hriff, hleast⟩ := hscan.regions r hall
    exact ⟨hlen, hnd, sd, hsdOn, hriff, hleast⟩
  · intro p hpOn hcard
    have hpmem : p ∈ interiorCoords W H :=
      (mem_interiorCoords_iff W H p).2 (onPix_interior hb hpOn)
    have hpV := hscan.preVisited p hpmem hpOn
    obtain ⟨r, hrAll, q, hqr, hidx⟩ := (hscan.vIff _).1 hpV
    obtain ⟨hnd, sd, hsdOn, _, hriff, hleast⟩ := hscan.regions r hrAll
    have hqc : q ∈ component edges W H sd := (hriff q).1 hqr
    have honq : onPix edges W H q := mem_component_on hsdOn hqc
    have : q = p := idxN_inj honq.1 hpOn.1 hidx
    subst this
    have hcomp_eq : component edges W H q = component edges W H sd :=
      component_eq_of_mem hsdOn hqc
    have hcomp_eq' : component edges W H sd = component edges W H q := by
      rw [hcomp_eq]
    have hriff' : ∀ x, x ∈ r ↔ x ∈ component edges W H q := by
      intro x
      rw [hriff x, hcomp_eq']
    have hlen : 80 ≤ r.length := by
      have := region_length_ncard hnd hriff'
      omega
    exact ⟨r, (hmemfilter r).2 ⟨hrAll, hlen⟩, hriff'⟩
  · intro p hpOn hcard r hr hpr
    obtain ⟨hall, hlen⟩ := (hmemfilter r).1 hr
    obtain ⟨hnd, sd, hsdOn, _, hriff, hleast⟩ := hscan.regions r hall
    have hpc : p ∈ component edges W H sd := (hriff p).1 hpr
    have hcomp_eq : component edges W H p = component edges W H sd :=
      component_eq_of_mem hsdOn hpc
    have hriff' : ∀ x, x ∈ r ↔ x ∈ component edges W H p := by
      intro x
      rw [hriff x, hcomp_eq]
    have := region_length_ncard hnd hriff'
    omega
  · exact List.Pairwise.sublist (List.filter_sublist _) hscan.ordered

/-- C7: within one detection call no pixel is claimed by two distinct
regions — the flood-filled regions (including those later discarded for
being below the minimum size) are pairwise disjoint, and no region
absorbs the same pixel twice. -/
theorem extractAll_disjoint (edges : List ℕ) (W H : ℕ)
    (hbin : ∀ i, i < edges.length → bget edges i = 0 ∨ bget edges i = 255)
    (hb : ∀ x : ℕ, x < W → ∀ y : ℕ, y < H → bget edges (y * W + x) = 255 →
      1 ≤ x ∧ x + 1 < W ∧ 1 ≤ y ∧ y + 1 < H) :
    (∀ r ∈ extractAll edges W H, r.Nodup) ∧
    (extractAll edges W H).Pairwise fun r₁ r₂ => ∀ q ∈ r₁, q ∉ r₂ := by
  have hscan := extractAll_scanInv edges W H hbin hb
  constructor
  · intro r hr
    exact (hscan.regions r hr).1
  · apply List.Pairwise.imp_of_mem ?_ hscan.ordered
    intro r₁ r₂ h1 h2 hrel q hq1 hq2
    obtain ⟨a, ha1, hleast, hlt⟩ := hrel
    obtain ⟨_, sd₁, hsd₁On, _, hr₁iff, _⟩ := hscan.regions r₁ h1
    obtain ⟨_, sd₂, hsd₂On, _, hr₂iff, _⟩ := hscan.regions r₂ h2
    have hq₁c : q ∈ component edges W H sd₁ := (hr₁iff q).1 hq1
    have hq₂c : q ∈ component edges W H sd₂ := (hr₂iff q).1 hq2
    have hcomp_eq : component edges W H sd₁ = component edges W H sd₂ := by
      rw [← component_eq_of_mem hsd₁On hq₁c, component_eq_of_mem hsd₂On hq₂c]
    have ha2 : a ∈ r₂ := (hr₂iff a).2 (hcomp_eq ▸ (hr₁iff a).1 ha1)
    exact absurd (hlt a ha2) (lt_irrefl _)

set_option maxRecDepth 40000 in
/-- Witness for C3 at the concrete single-column mask. -/
theorem extractRegions_components_witness :
    (∀ r ∈ extractRegions lineMask 5 82, 80 ≤ r.length ∧ r.Nodup ∧
      ∃ sd, onPix lineMask 5 82 sd ∧
        (∀ q, q ∈ r ↔ q ∈ component lineMask 5 82 sd) ∧
        ∀ q ∈ r, idxN 5 sd ≤ idxN 5 q) ∧
    (∀ p : ℤ × ℤ, onPix lineMask 5 82 p →
      80 ≤ (component lineMask 5 82 p).ncard →
      ∃ r ∈ extractRegions lineMask 5 82,
        ∀ q, q ∈ r ↔ q ∈ component lineMask 5 82 p) ∧
    (∀ p : ℤ × ℤ, onPix lineMask 5 82 p →
      (component lineMask 5 82 p).ncard < 80 →
      ∀ r ∈ extractRegions lineMask 5 82, p ∉ r) ∧
    (extractRegions lineMask 5 82).Pairwise (fun r₁ r₂ => ∃ a ∈ r₁,
      (∀ q ∈ r₁, idxN 5 a ≤ idxN 5 q) ∧ ∀ b ∈ r₂, idxN 5 a < idxN 5 b) :=
  extractRegions_components lineMask 5 82 (by decide) (by decide)

set_option maxRecDepth 40000 in
/-- Witness for C7 at the concrete small mask. -/
theorem extractAll_disjoint_witness :
    (∀ r ∈ extractAll smallMask 5 5, r.Nodup) ∧
    (extractAll smallMask 5 5).Pairwise fun r₁ r₂ => ∀ q ∈ r₁, q ∉ r₂ :=
  extractAll_disjoint smallMask 5 5 (by decide) (by decide)

/-! ## Claim C4: the edge mask produced by the Sobel detector -/

theorem rowIdx_lt {W H x y : ℕ} (hx : x < W) (hy : y < H) :
    y * W + x < W * H := by
  calc y * W + x < y * W + W := by omega
    _ = (y + 1) * W := by ring
    _ ≤ H * W := Nat.mul_le_mul_right W (by omega)
    _ = W * H := Nat.mul_comm H W

theorem rowIdx_decode {W x y : ℕ} (hx : x < W) :
    (y * W + x) % W = x ∧ (y * W + x) / W = y := by
  have hW : 0 < W := by omega
  constructor
  · rw [Nat.mul_comm y W, Nat.mul_add_mod]
    exact Nat.mod_eq_of_lt hx
  · rw [Nat.mul_comm y W, Nat.mul_add_div hW]
    simp [Nat.div_eq_of_lt hx]

theorem bget_sobel_eq {gray : List ℕ} {W H x y : ℕ} (hx : x < W) (hy : y < H) :
    bget (sobel gray W H) (y * W + x) =
      if 1 ≤ x ∧ x + 1 < W ∧ 1 ≤ y ∧ y + 1 < H then
        if 100 * 100 < sobelSumX gray W x y ^ 2 + sobelSumY gray W x y ^ 2
        then 255 else 0
      else 0 := by
  unfold sobel
  rw [bget_map_range _ _ _ (rowIdx_lt hx hy)]
  rw [(rowIdx_decode hx).1, (rowIdx_decode hx).2]

/-- C4: every sample of the Sobel edge mask is exactly 0 or 255; an
interior pixel is 255 exactly when the gradient magnitude
`√(sumX² + sumY²)` of its 3×3 neighbourhood strictly exceeds the
threshold 100, and every pixel of the outermost one-pixel border frame
is 0. -/
theorem sobel_spec (gray : List ℕ) (W H : ℕ) (x y : ℕ)
    (hx : x < W) (hy : y < H) :
    (∀ i, bget (sobel gray W H) i = 0 ∨ bget (sobel gray W H) i = 255) ∧
    ((x = 0 ∨ y = 0 ∨ x = W - 1 ∨ y = H - 1) →
      bget (sobel gray W H) (y * W + x) = 0) ∧
    ((1 ≤ x ∧ x + 1 < W ∧ 1 ≤ y ∧ y + 1 < H) →
      (bget (sobel gray W H) (y * W + x) = 255 ↔
        (100 : ℝ) < Real.sqrt ((sobelSumX gray W x y : ℝ) ^ 2
          + (sobelSumY gray W x y : ℝ) ^ 2))) := by
  refine ⟨?_, ?_, ?_⟩
  · intro i
    by_cases hi : i < W * H
    · unfold sobel
      rw [bget_map_range _ _ _ hi]
      dsimp only
      split_ifs <;> simp
    · left
      unfold bget
      apply List.getD_eq_default
      simpa [sobel] using le_of_not_lt hi
  · intro hborder
    rw [bget_sobel_eq hx hy, if_neg]
    omega
  · intro hint
    rw [bget_sobel_eq hx hy, if_pos hint]
    have hsq : (100 : ℝ) < Real.sqrt ((sobelSumX gray W x y : ℝ) ^ 2
        + (sobelSumY gray W x y : ℝ) ^ 2) ↔
        (100 * 100 : ℤ) < sobelSumX gray W x y ^ 2 + sobelSumY gray W x y ^ 2 := by
      rw [Real.lt_sqrt (by norm_num : (0 : ℝ) ≤ 100)]
      constructor
      · intro h
        exact_mod_cast (by push_cast; linarith : ((100 * 100 : ℤ) : ℝ) <
          ((sobelSumX gray W x y ^ 2 + sobelSumY gray W x y ^ 2 : ℤ) : ℝ))
      · intro h
        have : ((100 * 100 : ℤ) : ℝ) <
            ((sobelSumX gray W x y ^ 2 + sobelSumY gray W x y ^ 2 : ℤ) : ℝ) := by
          exact_mod_cast h
        push_cast at this
        linarith
    rw [hsq]
    split_ifs with hc
    · exact iff_of_true rfl hc
    · exact iff_of_false (by norm_num) hc

/-- Witness for C4 at a concrete luminance buffer and pixel. -/
theorem sobel_spec_witness :
    (∀ i, bget (sobel smallMask 5 5) i = 0 ∨ bget (sobel smallMask 5 5) i = 255) ∧
    ((2 = 0 ∨ 2 = 0 ∨ 2 = 5 - 1 ∨ 2 = 5 - 1) →
      bget (sobel smallMask 5 5) (2 * 5 + 2) = 0) ∧
    ((1 ≤ 2 ∧ 2 + 1 < 5 ∧ 1 ≤ 2 ∧ 2 + 1 < 5) →
      (bget (sobel smallMask 5 5) (2 * 5 + 2) = 255 ↔
        (100 : ℝ) < Real.sqrt ((sobelSumX smallMask 5 2 2 : ℝ) ^ 2
          + (sobelSumY smallMask 5 2 2 : ℝ) ^ 2))) :=
  sobel_spec smallMask 5 5 2 2 (by decide) (by decide)

/-! ## Claim C1: centroid vs bounding box -/

theorem mean_between {l : List ℤ} (h : l ≠ []) :
    (listMin l : ℚ) ≤ (l.sum : ℚ) / (l.length : ℚ) ∧
    (l.sum : ℚ) / (l.length : ℚ) ≤ (listMax l : ℚ) := by
  have hlen : 0 < l.length := List.length_pos.2 h
  have hlenQ : (0 : ℚ) < (l.length : ℚ) := by exact_mod_cast hlen
  have hlow : (l.length : ℤ) * listMin l ≤ l.sum := by
    simpa [nsmul_eq_mul] using List.card_nsmul_le_sum l (listMin l)
      (fun x hx => listMin_le x hx)
  have hhigh : l.sum ≤ (l.length : ℤ) * listMax l := by
    simpa [nsmul_eq_mul] using List.sum_le_card_nsmul l (listMax l)
      (fun x hx => le_listMax x hx)
  constructor
  · rw [le_div_iff hlenQ]
    exact_mod_cast (by rw [mul_comm]; exact hlow : listMin l * (l.length : ℤ) ≤ l.sum)
  · rw [div_le_iff hlenQ]
    exact_mod_cast (by rw [mul_comm]; exact hhigh : l.sum ≤ listMax l * (l.length : ℤ))

/-- C1 amended: every detected shape's centroid lies within its bounding
box inclusively — it can land on the boundary (for instance when the
region is a single column or row, so the bounding box has zero width or
height) — and the bounding-box extents are nonnegative. -/
theorem detect_centroid_in_bbox (img : ImageData) (t₀ t₁ : ℚ)
    (s : DetectedShape) (hs : s ∈ (detectShapes img t₀ t₁).shapes) :
    (s.boundingBox.x : ℚ) ≤ s.center.x ∧
    s.center.x ≤ s.boundingBox.x + s.boundingBox.width ∧
    (s.boundingBox.y : ℚ) ≤ s.center.y ∧
    s.center.y ≤ s.boundingBox.y + s.boundingBox.height ∧
    0 ≤ s.boundingBox.width ∧ 0 ≤ s.boundingBox.height := by
  obtain ⟨pts, hpts, rfl⟩ := List.mem_map.1 hs
  have hlen : 80 ≤ pts.length := by
    have := List.of_mem_filter hpts
    simpa using this
  have hne : pts ≠ [] := by
    intro h
    rw [h] at hlen
    simp at hlen
  have hnex : pts.map Prod.fst ≠ [] := by simpa using hne
  have hney : pts.map Prod.snd ≠ [] := by simpa using hne
  have hbx : (mkShape pts).boundingBox.x = listMin (pts.map Prod.fst) := rfl
  have hby : (mkShape pts).boundingBox.y = listMin (pts.map Prod.snd) := rfl
  have hbw : (mkShape pts).boundingBox.width =
      listMax (pts.map Prod.fst) - listMin (pts.map Prod.fst) := rfl
  have hbh : (mkShape pts).boundingBox.height =
      listMax (pts.map Prod.snd) - listMin (pts.map Prod.snd) := rfl
  have hcx : (mkShape pts).center.x =
      ((pts.map Prod.fst).sum : ℚ) / ((pts.map Prod.fst).length : ℚ) := rfl
  have hcy : (mkShape pts).center.y =
      ((pts.map Prod.snd).sum : ℚ) / ((pts.map Prod.snd).length : ℚ) := rfl
  have hminmaxx : listMin (pts.map Prod.fst) ≤ listMax (pts.map Prod.fst) :=
    listMin_le _ (listMax_mem hnex)
  have hminmaxy : listMin (pts.map Prod.snd) ≤ listMax (pts.map Prod.snd) :=
    listMin_le _ (listMax_mem hney)
  obtain ⟨hxlow, hxhigh⟩ := mean_between hnex
  obtain ⟨hylow, hyhigh⟩ := mean_between hney
  refine ⟨?_, ?_, ?_, ?_, ?_, ?_⟩
  · rw [hbx, hcx]
    exact hxlow
  · rw [hbx, hbw, hcx]
    have : ((listMin (pts.map Prod.fst) : ℚ)) +
        ((listMax (pts.map Prod.fst) - listMin (pts.map Prod.fst) : ℤ) : ℚ) =
        ((listMax (pts.map Prod.fst) : ℤ) : ℚ) := by
      push_cast
      ring
    rw [this]
    exact hxhigh
  · rw [hby, hcy]
    exact hylow
  · rw [hby, hbh, hcy]
    have : ((listMin (pts.map Prod.snd) : ℚ)) +
        ((listMax (pts.map Prod.snd) - listMin (pts.map Prod.snd) : ℤ) : ℚ) =
        ((listMax (pts.map Prod.snd) : ℤ) : ℚ) := by
      push_cast
      ring
    rw [this]
    exact hyhigh
  · rw [hbw]
    omega
  · rw [hbh]
    omega

theorem toGray_cexImg : toGray cexImg = grayCex := by
  unfold toGray grayCex
  show (List.range (5 * 82)).map _ = _
  apply List.map_congr_left
  intro p _
  unfold avg
  have h3 : (4 * p) % 4 = 0 := by omega
  have h4 : (4 * p + 1) % 4 = 1 := by omega
  have h5 : (4 * p + 2) % 4 = 2 := by omega
  have h6 : (4 * p) / 4 = p := by omega
  have h7 : (4 * p + 1) / 4 = p := by omega
  have h8 : (4 * p + 2) / 4 = p := by omega
  simp only [cexImg, h3, h4, h5, h6, h7, h8]
  by_cases hc : p % 5 = 2
  · simp only [hc]
    norm_num
    rw [white_pixel_val]
    norm_num [jsClampU8]
  · simp only [if_neg hc]
    norm_num [hc]
    rw [black_pixel_val]
    norm_num [jsClampU8]

theorem sobel_hbin (gray : List ℕ) (W H : ℕ) :
    ∀ i, i < (sobel gray W H).length →
      bget (sobel gray W H) i = 0 ∨ bget (sobel gray W H) i = 255 := by
  intro i hi
  have hlen : (sobel gray W H).length = W * H := by simp [sobel]
  rw [hlen] at hi
  unfold sobel
  rw [bget_map_range _ _ _ hi]
  dsimp only
  split_ifs <;> simp

theorem sobel_hb (gray : List ℕ) (W H : ℕ) :
    ∀ x : ℕ, x < W → ∀ y : ℕ, y < H →
      bget (sobel gray W H) (y * W + x) = 255 →
      1 ≤ x ∧ x + 1 < W ∧ 1 ≤ y ∧ y + 1 < H := by
  intro x hx y hy h255
  rw [bget_sobel_eq hx hy] at h255
  by_contra hn
  rw [if_neg hn] at h255
  exact absurd h255 (by norm_num)

set_option maxRecDepth 40000 in
theorem edgesCex_col2_off :
    ∀ y : ℕ, y < 82 → bget edgesCex (y * 5 + 2) ≠ 255 := by decide

set_option maxRecDepth 40000 in
theorem edgesCex_col1_on :
    ∀ k : ℕ, k < 80 → bget edgesCex ((k + 1) * 5 + 1) = 255 := by decide

theorem onPix_cex_bounds {q : ℤ × ℤ} (hq : onPix edgesCex 5 82 q) :
    (q.1 = 1 ∨ q.1 = 3) ∧ 1 ≤ q.2 ∧ q.2 ≤ 80 := by
  have hint := onPix_interior (sobel_hb grayCex 5 82) hq
  refine ⟨?_, by omega, by omega⟩
  by_contra hx
  push_neg at hx
  have hx2 : q.1.toNat = 2 := by omega
  have hidx : idxN 5 q = q.2.toNat * 5 + 2 := by
    unfold idxN
    rw [hx2]
  have h255 : bget edgesCex (q.2.toNat * 5 + 2) = 255 := by
    rw [← hidx]
    exact hq.2
  exact edgesCex_col2_off q.2.toNat (by omega) h255

theorem onPix_cex_col1 (k : ℕ) (hk : k < 80) :
    onPix edgesCex 5 82 ((1 : ℤ), (k : ℤ) + 1) := by
  refine ⟨⟨by norm_num, by omega, by norm_num, by omega⟩, ?_⟩
  have hidx : idxN 5 ((1 : ℤ), (k : ℤ) + 1) = (k + 1) * 5 + 1 := by
    unfold idxN
    have h1 : ((k : ℤ) + 1).toNat = k + 1 := by omega
    simp [h1]
  rw [hidx]
  exact edgesCex_col1_on k hk

theorem component_cex : component edgesCex 5 82 (1, 1) = colSet := by
  ext q
  constructor
  · intro hq
    have hq' : Reach edgesCex 5 82 (1, 1) q := hq
    clear hq
    induction hq' with
    | refl => exact ⟨rfl, by norm_num, by norm_num⟩
    | tail h1 h2 ih =>
      obtain ⟨hb1, hb2, hb3⟩ := ih
      obtain ⟨hadj, hon⟩ := h2
      obtain ⟨hx, hy1, hy2⟩ := onPix_cex_bounds hon
      obtain ⟨ha1, ha2⟩ := hadj
      refine ⟨?_, hy1, hy2⟩
      rcases hx with h | h
      · exact h
      · exfalso
        omega
  · rintro ⟨hq1, hq2, hq3⟩
    have hreach : ∀ k : ℕ, k < 80 →
        Reach edgesCex 5 82 (1, 1) (1, (k : ℤ) + 1) := by
      intro k
      induction k with
      | zero =>
        intro _
        have h0 : ((0 : ℕ) : ℤ) + 1 = 1 := by norm_num
        rw [h0]
        exact Relation.ReflTransGen.refl
      | succ k ih =>
        intro hk
        have hstep : hop edgesCex 5 82 (1, (k : ℤ) + 1) (1, ((k + 1 : ℕ) : ℤ) + 1) := by
          refine ⟨⟨by simp, ?_⟩, ?_⟩
          · show ((((k + 1 : ℕ) : ℤ) + 1) - ((k : ℤ) + 1)).natAbs ≤ 1
            omega
          · exact onPix_cex_col1 (k + 1) hk
        exact Relation.ReflTransGen.tail (ih (by omega)) hstep
    have hk : (q.2 - 1).toNat < 80 := by omega
    have hqe : q = (1, ((q.2 - 1).toNat : ℤ) + 1) := by
      apply Prod.ext
      · exact hq1
      · show q.2 = ((q.2 - 1).toNat : ℤ) + 1
        omega
    rw [hqe]
    exact hreach _ hk

theorem ncard_colSet : colSet.ncard = 80 := by
  have h1 : colSet =
      ↑((Finset.range 80).image fun (k : ℕ) => ((1 : ℤ), (k : ℤ) + 1)) := by
    ext q
    simp only [colSet, Finset.coe_image, Set.mem_image, Finset.mem_coe,
      Finset.mem_range, Set.mem_setOf_eq]
    constructor
    · rintro ⟨hq1, hq2, hq3⟩
      refine ⟨(q.2 - 1).toNat, by omega, ?_⟩
      apply Prod.ext
      · exact hq1.symm
      · show ((q.2 - 1).toNat : ℤ) + 1 = q.2
        omega
    · rintro ⟨k, hk, rfl⟩
      exact ⟨rfl, by omega, by omega⟩
  rw [h1, Set.ncard_coe_Finset, Finset.card_image_of_injOn, Finset.card_range]
  intro a _ b _ hab
  have : (a : ℤ) + 1 = (b : ℤ) + 1 := congrArg Prod.snd hab
  omega

theorem cex_region : ∃ r, r ∈ extractRegions edgesCex 5 82 ∧ r.Nodup ∧
    (∀ q, q ∈ r ↔ q ∈ colSet) ∧ ((1 : ℤ), (1 : ℤ)) ∈ r := by
  have hscan := extractAll_scanInv edgesCex 5 82
    (sobel_hbin grayCex 5 82) (sobel_hb grayCex 5 82)
  have hpOn : onPix edgesCex 5 82 (1, 1) := by
    have h := onPix_cex_col1 0 (by norm_num)
    have h0 : ((0 : ℕ) : ℤ) + 1 = 1 := by norm_num
    rwa [h0] at h
  have hpmem : ((1 : ℤ), (1 : ℤ)) ∈ interiorCoords 5 82 :=
    (mem_interiorCoords_iff 5 82 _).2
      (onPix_interior (sobel_hb grayCex 5 82) hpOn)
  have hpV := hscan.preVisited _ hpmem hpOn
  obtain ⟨r, hrAll, q, hqr, hidx⟩ := (hscan.vIff _).1 hpV
  obtain ⟨hnd, sd, hsdOn, _, hriff, _⟩ := hscan.regions r hrAll
  have hqc : q ∈ component edgesCex 5 82 sd := (hriff q).1 hqr
  have honq : onPix edgesCex 5 82 q := mem_component_on hsdOn hqc
  have hq11 : q = (1, 1) := idxN_inj honq.1 hpOn.1 hidx
  subst hq11
  have hcomp_eq : component edgesCex 5 82 sd = colSet := by
    rw [← component_eq_of_mem hsdOn hqc, component_cex]
  have hriff' : ∀ x, x ∈ r ↔ x ∈ colSet := by
    intro x
    rw [hriff x, hcomp_eq]
  have hlen : r.length = 80 := by
    have h := region_length_ncard hnd hriff
    rw [hcomp_eq, ncard_colSet] at h
    omega
  refine ⟨r, ?_, hnd, hriff', hqr⟩
  unfold extractRegions
  rw [List.mem_filter]
  exact ⟨hrAll, by simp [hlen]⟩

set_option maxRecDepth 8192 in
theorem detectShapes_cexImg_shapes (t₀ t₁ : ℚ) :
    (detectShapes cexImg t₀ t₁).shapes =
      (extractRegions edgesCex 5 82).map mkShape := by
  show (extractRegions (sobel (toGray cexImg) 5 82) 5 82).map mkShape = _
  rw [toGray_cexImg]
  rfl

theorem cex_shapes_ne_nil : (detectShapes cexImg 0 0).shapes ≠ [] := by
  obtain ⟨r, hr, _, _, _⟩ := cex_region
  rw [detectShapes_cexImg_shapes]
  intro h
  rw [List.map_eq_nil_iff] at h
  rw [h] at hr
  exact List.not_mem_nil r hr

/-- C1 counterexample: on the concrete image `cexImg` (a white vertical
line on black), `detectShapes` returns a shape whose region is a single
column: its bounding box has zero width and the centroid lies on the
bounding-box boundary, not strictly inside it. -/
theorem detect_strict_containment_cex :
    ∃ s ∈ (detectShapes cexImg 0 0).shapes,
      ¬((s.boundingBox.x : ℚ) < s.center.x ∧
        s.center.x < s.boundingBox.x + s.boundingBox.width ∧
        (s.boundingBox.y : ℚ) < s.center.y ∧
        s.center.y < s.boundingBox.y + s.boundingBox.height) := by
  obtain ⟨r, hr, hnd, hriff, h11⟩ := cex_region
  refine ⟨mkShape r, ?_, ?_⟩
  · rw [detectShapes_cexImg_shapes]
    exact List.mem_map_of_mem mkShape hr
  · rintro ⟨hlt, -⟩
    have hxs : ∀ x ∈ r.map Prod.fst, x = 1 := by
      intro x hx
      obtain ⟨q, hq, rfl⟩ := List.mem_map.1 hx
      exact ((hriff q).1 hq).1
    have hne : r ≠ [] := by
      intro h
      rw [h] at h11
      exact List.not_mem_nil _ h11
    have hnex : r.map Prod.fst ≠ [] := by simpa using hne
    have hminx : listMin (r.map Prod.fst) = 1 := hxs _ (listMin_mem hnex)
    have hsum : (r.map Prod.fst).sum = ((r.map Prod.fst).length : ℤ) := by
      have h := List.sum_eq_card_nsmul (r.map Prod.fst) 1 hxs
      simpa [nsmul_eq_mul] using h
    have hlenpos : 0 < (r.map Prod.fst).length := List.length_pos.2 hnex
    have hbx : (mkShape r).boundingBox.x = listMin (r.map Prod.fst) := rfl
    have hcx : (mkShape r).center.x =
        ((r.map Prod.fst).sum : ℚ) / ((r.map Prod.fst).length : ℚ) := rfl
    rw [hbx, hminx, hcx, hsum] at hlt
    have hlenQ : ((r.map Prod.fst).length : ℚ) ≠ 0 := by
      exact_mod_cast Nat.pos_iff_ne_zero.1 hlenpos
    rw [show ((((r.map Prod.fst).length : ℤ) : ℚ))
        = ((r.map Prod.fst).length : ℚ) by push_cast; ring] at hlt
    rw [div_self hlenQ] at hlt
    norm_num at hlt

/-- Witness for C1 (amended): the first shape detected in `cexImg` has
its centroid inside its bounding box inclusively. -/
theorem detect_centroid_in_bbox_witness :
    ((((detectShapes cexImg 0 0).shapes.head!).boundingBox.x : ℚ) ≤
      ((detectShapes cexImg 0 0).shapes.head!).center.x) ∧
    ((detectShapes cexImg 0 0).shapes.head!).center.x ≤
      ((detectShapes cexImg 0 0).shapes.head!).boundingBox.x +
        ((detectShapes cexImg 0 0).shapes.head!).boundingBox.width ∧
    ((((detectShapes cexImg 0 0).shapes.head!).boundingBox.y : ℚ) ≤
      ((detectShapes cexImg 0 0).shapes.head!).center.y) ∧
    ((detectShapes cexImg 0 0).shapes.head!).center.y ≤
      ((detectShapes cexImg 0 0).shapes.head!).boundingBox.y +
        ((detectShapes cexImg 0 0).shapes.head!).boundingBox.height ∧
    0 ≤ ((detectShapes cexImg 0 0).shapes.head!).boundingBox.width ∧
    0 ≤ ((detectShapes cexImg 0 0).shapes.head!).boundingBox.height :=
  detect_centroid_in_bbox cexImg 0 0 _ (List.head!_mem_self cex_shapes_ne_nil)

end ShapeDet
